import Mathlib

/-!
Verification development for the Japanese-vocabulary list builder.

The Python sources are shallowly embedded below:
* `src/utils.py`   — field normalisation (`norm`, `normJlpt`), row
  canonicalisation (`canonRow`) and the merge engine (`mergeRows`);
* `src/extractor.py` — the candidate extractor
  (`extractCandidatesFromJapaneseText`);
* `src/topic_service.py` — the uniqueness-guaranteeing generation loop
  (`generateRows`) and the lenient JSON repair parser (`lenientJsonLoads`),
  together with a fuel-based model of Python's `json.loads`.

Strings are Lean `String`s; Python string operations (`strip`, `upper`,
`replace`, regular-expression substitutions) are implemented over `List Char`
by structural recursion so that every definition evaluates inside the kernel.
-/

namespace Vocab

/-- Whitespace set used by Python's `str.strip` and the regex class `\s`
(the ASCII whitespace characters plus NBSP and the ideographic space, the
only non-ASCII whitespace that appears in this code base's data). -/
def pyIsSpace (c : Char) : Bool :=
  c = ' ' || c = '\t' || c = '\n' || c = '\r' ||
  c = '\x0b' || c = '\x0c' || c = ' ' || c = '　'

/-- Python `str.strip()`. -/
def pyStrip (s : String) : String :=
  ⟨((s.toList.dropWhile pyIsSpace).reverse.dropWhile pyIsSpace).reverse⟩

/-- Python `str.upper()` restricted to the alphabets this program meets:
ASCII letters and full-width (U+FF41–U+FF5A) letters. -/
def pyUpperChar (c : Char) : Char :=
  if 'a' ≤ c ∧ c ≤ 'z' then Char.ofNat (c.toNat - 32)
  else if 'ａ' ≤ c ∧ c ≤ 'ｚ' then Char.ofNat (c.toNat - 32)
  else c

def pyUpper (s : String) : String := ⟨s.toList.map pyUpperChar⟩

/-- One left-to-right, non-overlapping replacement pass over a character
list, with explicit fuel (the fuel is always the list length, which makes
the recursion structural and kernel-reducible). -/
def replaceGo (pat rep : List Char) : Nat → List Char → List Char
  | 0, cs => cs
  | _ + 1, [] => []
  | fuel + 1, c :: cs =>
      if pat.isPrefixOf (c :: cs) then
        rep ++ replaceGo pat rep fuel ((c :: cs).drop pat.length)
      else
        c :: replaceGo pat rep fuel cs

/-- Python `str.replace` (for the non-empty patterns this program uses). -/
def pyReplace (s pat rep : String) : String :=
  if pat = "" then s
  else ⟨replaceGo pat.toList rep.toList s.toList.length s.toList⟩

/-- `utils._norm`: strip surrounding whitespace (`(s or "").strip()`). -/
def norm (s : String) : String := pyStrip s

/-- `utils._norm_jlpt`: upper-case, drop ASCII spaces and the literal
`JLPT`, convert full-width `Ｎ` to ASCII, then collapse anything outside
the five-symbol enumeration to the empty string. -/
def normJlpt (s : String) : String :=
  let s := pyReplace (pyUpper (norm s)) " " ""
  let s := pyReplace s "JLPT" ""
  let s := pyReplace s "Ｎ" "N"
  if s = "N5" ∨ s = "N4" ∨ s = "N3" ∨ s = "N2" ∨ s = "N1" then s else ""

/-- The canonical 5-field record `[term, reading, meaning, example, jlpt]`
of `utils.py` (the `example` column is called `ex` because `example` is a
Lean keyword). -/
structure Row where
  term : String
  reading : String
  meaning : String
  ex : String
  jlpt : String
deriving DecidableEq, Repr

/-- `utils.merge_rows._canon_row`: right-pad the raw record to five fields
(`(r + ["", "", "", "", ""])[:5]`), strip the first four and normalise the
JLPT field. -/
def canonRow (r : List String) : Row where
  term := norm (r.getD 0 "")
  reading := norm (r.getD 1 "")
  meaning := norm (r.getD 2 "")
  ex := norm (r.getD 3 "")
  jlpt := normJlpt (r.getD 4 "")

/-- The merge key `(term, reading)` of a canonical row. -/
def rowKey (r : Row) : String × String := (r.term, r.reading)

/-- Python's string `or`: the left operand unless it is empty. -/
def strOr (a b : String) : String := if a = "" then b else a

/-- The loop state of `utils.merge_rows`: the growing merged list, the
`(term, reading) → position` dictionary, both counters and the list of
newly added keys (the Python `set` only ever receives distinct keys, so a
list in insertion order is a faithful model). -/
structure MergeState where
  merged : List Row
  index : String × String → Option Nat
  added : Nat
  updated : Nat
  addedKeys : List (String × String)

def initState : MergeState :=
  { merged := [], index := fun _ => none, added := 0, updated := 0, addedKeys := [] }

/-- Seeding step of `merge_rows`: append the canonical existing row and
index it when its term is non-empty. -/
def seedStep (st : MergeState) (r : List String) : MergeState :=
  let row := canonRow r
  let i := st.merged.length
  { st with
    merged := st.merged ++ [row]
    index := if row.term ≠ "" then
        (fun k => if k = (row.term, row.reading) then some i else st.index k)
      else st.index }

def seedState (existing : List (List String)) : MergeState :=
  existing.foldl seedStep initState

/-- Field-by-field conflict resolution of `merge_rows` for a key hit:
`fill_blank_only`, `prefer_incoming`, or the conflict-aware default. -/
def resolveRow (fb pi : Bool) (old rin : Row) : Row :=
  if fb then
    { term := strOr old.term rin.term
      reading := strOr old.reading rin.reading
      meaning := strOr old.meaning rin.meaning
      ex := strOr old.ex rin.ex
      jlpt := strOr old.jlpt rin.jlpt }
  else if pi then
    { term := strOr rin.term old.term
      reading := strOr rin.reading old.reading
      meaning := strOr rin.meaning old.meaning
      ex := strOr rin.ex old.ex
      jlpt := strOr rin.jlpt old.jlpt }
  else
    { term := if rin.term ≠ "" ∧ rin.term ≠ old.term then rin.term else old.term
      reading := if rin.reading ≠ "" ∧ rin.reading ≠ old.reading then rin.reading else old.reading
      meaning := if rin.meaning ≠ "" ∧ rin.meaning ≠ old.meaning then rin.meaning else old.meaning
      ex := if rin.ex ≠ "" ∧ rin.ex ≠ old.ex then rin.ex else old.ex
      jlpt := if rin.jlpt ≠ "" ∧ rin.jlpt ≠ old.jlpt then rin.jlpt else old.jlpt }

def emptyRow : Row := { term := "", reading := "", meaning := "", ex := "", jlpt := "" }

/-- One incoming row of `merge_rows`: skip empty terms, update in place on
a key hit (counting only real changes), otherwise append and record the
new key. -/
def mergeStep (fb pi : Bool) (st : MergeState) (r : List String) : MergeState :=
  let rin := canonRow r
  if rin.term = "" then st
  else
    let key := (rin.term, rin.reading)
    match st.index key with
    | some i =>
        let old := st.merged.getD i emptyRow
        let new := resolveRow fb pi old rin
        if new ≠ old then
          { st with merged := st.merged.set i new, updated := st.updated + 1 }
        else st
    | none =>
        { merged := st.merged ++ [rin]
          index := fun k => if k = key then some st.merged.length else st.index k
          added := st.added + 1
          updated := st.updated
          addedKeys := st.addedKeys ++ [key] }

/-- The four components returned by `utils.merge_rows`. -/
structure MergeResult where
  merged : List Row
  added : Nat
  updated : Nat
  addedKeys : List (String × String)
deriving DecidableEq, Repr

/-- `utils.merge_rows`. -/
def mergeRows (existing incoming : List (List String))
    (fill_blank_only prefer_incoming : Bool) : MergeResult :=
  let st := incoming.foldl (mergeStep fill_blank_only prefer_incoming) (seedState existing)
  { merged := st.merged, added := st.added, updated := st.updated, addedKeys := st.addedKeys }

/-! ## Candidate extractor (`src/extractor.py`)

The fugashi tokenizer is an external collaborator; the embedding takes the
token sequence as input.  A raw token (`MNode`) carries the attributes read
by `extractor._tok`, with `""` standing for a missing attribute (Python's
`getattr(..., None) or fallback` treats `None` and `""` alike).

Scores: the source computes `c + min(2, len(w)//2)` for words (an integer)
and `2.0 + 0.4*len(items) + min(2, len(term)//3)` for phrases, plus a flat
`0.5` bonus when a phrase enters the combined list — every score is a
multiple of 0.1, so scores are represented here as exact 10× integers,
which preserves order and ties. -/

/-- A raw fugashi token: surface plus the feature attributes consulted by
`_tok` (`lemma`, `pos1`, `pos`, `reading`, `orth`). -/
structure MNode where
  surface : String
  rawLemma : String
  rawPos1 : String
  rawPos : String
  rawReading : String
  rawOrth : String
deriving DecidableEq, Repr

/-- `extractor._PUNCT` (a Python set of single characters). -/
def punctChars : List Char :=
  "。．、，・！？!?（）()［］[]\x7b\x7d：；「」『』…—- \n\t\r".toList

/-- Membership of a surface string in `_PUNCT` (true only for the
single-character strings of the set). -/
def isPunct (s : String) : Bool :=
  match s.toList with
  | [c] => punctChars.contains c
  | _ => false

/-- `extractor._STOP_TERMS`. -/
def STOP_TERMS : List String :=
  ["する","ある","いる","こと","もの","これ","それ","あれ","ため","よう",
   "さん","できる","なる","及び","また","など","ようだ","ように","そして"]

/-- `extractor.katakana_to_hiragana`. -/
def katakanaToHiragana (s : String) : String :=
  ⟨s.toList.map (fun ch =>
    if 0x30A1 ≤ ch.toNat ∧ ch.toNat ≤ 0x30F6 then Char.ofNat (ch.toNat - 0x60) else ch)⟩

/-- The `(surface, lemma, pos, reading)` quadruple produced by
`extractor._tok`. -/
structure Tok where
  surf : String
  lem : String
  pos : String
  reading : String
deriving DecidableEq, Repr

/-- Characters before the first occurrence of `sep`. -/
def splitHeadGo (sep : List Char) : List Char → List Char
  | [] => []
  | c :: cs => if sep.isPrefixOf (c :: cs) then [] else c :: splitHeadGo sep cs

/-- Python `str.split(sep)[0]` for a non-empty separator: the prefix up to
the first occurrence of `sep`. -/
def splitHead (s sep : String) : String :=
  if sep = "" then s else ⟨splitHeadGo sep.toList s.toList⟩

/-- `extractor._tok`: attribute fallbacks, coarse POS
(`名詞-普通名詞 → 名詞`) and katakana→hiragana reading. -/
def tokOf (n : MNode) : Tok :=
  let lem := strOr n.rawLemma n.surface
  let pos := strOr n.rawPos1 n.rawPos
  let pos := if pos = "" then pos else splitHead pos "-"
  let reading := strOr n.rawReading (strOr n.rawOrth n.surface)
  { surf := n.surface, lem := lem, pos := pos, reading := katakanaToHiragana reading }

/-- A scored candidate `(term, reading, score)`; the score is the 10×
integer representation described above. -/
abbrev Cand := String × String × Nat

/-- `extractor._score_phrase` (score in 10× integers:
`2.0 + 0.4*len(items) + min(2, len(term)//3)`). -/
def scorePhrase (items : List (String × String)) : Cand :=
  let term := String.join (items.map Prod.fst)
  let reading := String.join (items.map Prod.snd)
  (term, reading, 20 + 4 * items.length + 10 * min 2 (term.length / 3))

/-- Insertion position of Python's stable descending sort: an element goes
below everything with a strictly larger score and above everything with a
smaller-or-equal score that was seen later. -/
def insertDesc (x : Cand) : List Cand → List Cand
  | [] => [x]
  | y :: ys => if x.2.2 < y.2.2 then y :: insertDesc x ys else x :: y :: ys

/-- `list.sort(key=lambda x: x[2], reverse=True)` (stable). -/
def sortDesc (l : List Cand) : List Cand := l.foldr insertDesc []

/-- One occurrence added to an insertion-ordered count table. -/
def countStep (acc : List (String × Nat)) (w : String) : List (String × Nat) :=
  if acc.any (fun p => p.1 = w) then
    acc.map (fun p => if p.1 = w then (p.1, p.2 + 1) else p)
  else acc ++ [(w, 1)]

/-- Occurrence counts in first-occurrence order: the iteration order of
`collections.Counter` (an insertion-ordered dict). -/
def countOcc (ws : List String) : List (String × Nat) :=
  ws.foldl countStep []

/-- `Counter.most_common(1)[0]`: the first (earliest-inserted) entry of
maximal count. -/
def firstMax (l : List (String × Nat)) : String :=
  match l with
  | [] => ""
  | h :: t => (t.foldl (fun b p => if b.2 < p.2 then p else b) h).1

/-- The majority reading of a headword: the most frequent reading among
the singles carrying that headword, earliest-inserted reading winning ties
(`readings[w].most_common(1)[0][0]`). -/
def bestReading (singles : List (String × String × String)) (w : String) : String :=
  firstMax (countOcc ((singles.filter (fun s => s.1 = w)).map (fun s => s.2.1)))

/-- Maximal runs of consecutive noun tokens (the `run` loop of the phrase
section); emits every run of length ≥ 2. -/
def nounRuns : List Tok → List (String × String) → List (List (String × String))
  | [], run => if 2 ≤ run.length then [run] else []
  | t :: ts, run =>
      if t.pos = "名詞" ∧ ¬ isPunct t.surf then
        nounRuns ts (run ++ [(t.surf, t.reading)])
      else
        (if 2 ≤ run.length then [run] else []) ++ nounRuns ts []

/-- Adjacent (adjective, noun) bigrams. -/
def adjNounPairs : List Tok → List Cand
  | a :: b :: rest =>
      (if a.pos = "形容詞" ∧ b.pos = "名詞" then
        [scorePhrase [(a.surf, a.reading), (b.surf, b.reading)]] else [])
      ++ adjNounPairs (b :: rest)
  | _ => []

/-- Sliding windows of length `2..max(2, max_ngram_len)` containing at
least two nouns and no punctuation. -/
def ngramCands (seq : List Tok) (maxNgramLen : Nat) : List Cand :=
  (List.range' 2 (max 2 maxNgramLen - 1)).flatMap fun n =>
    (List.range (seq.length + 1 - n)).filterMap fun i =>
      let chunk := (seq.drop i).take n
      if chunk.any (fun t => isPunct t.surf) then none
      else if 2 ≤ (chunk.filter (fun t => t.pos = "名詞")).length then
        some (scorePhrase (chunk.map (fun t => (t.surf, t.reading))))
      else none

/-- The seen-set pass over the ranked single words (first occurrence of a
term wins). -/
def dedupRanked : List Cand → List String → List Cand × List String
  | [], seen => ([], seen)
  | (t, r, sc) :: rest, seen =>
      if seen.contains t then dedupRanked rest seen
      else
        let out := dedupRanked rest (seen ++ [t])
        ((t, r, sc) :: out.1, out.2)

/-- The seen-set pass over the phrases: drop empty or stop terms, add the
flat phrase bonus (`+0.5`, i.e. `+5` in 10× units). -/
def dedupPhrases : List Cand → List String → List Cand
  | [], _ => []
  | (t, r, sc) :: rest, seen =>
      if t = "" ∨ STOP_TERMS.contains t then dedupPhrases rest seen
      else if seen.contains t then dedupPhrases rest seen
      else (t, r, sc + 5) :: dedupPhrases rest (seen ++ [t])

/-- The output loop: append candidates of term length ≥ 2 and stop as soon
as `top_k` is reached (the length test runs after the append, exactly as
in the source). -/
def finalLoop (topK : Nat) : List Cand → List (String × String) → List (String × String)
  | [], out => out
  | (t, r, _) :: rest, out =>
      let out := if 2 ≤ t.length then out ++ [(t, r)] else out
      if topK ≤ out.length then out else finalLoop topK rest out

/-- The single-word filter of the extractor: drop punctuation, keep
nouns/verbs/adjectives, use the lemma as headword for verbs/adjectives,
drop empty and stop headwords. -/
def singleOf (t : MNode) : Option (String × String × String) :=
  let tk := tokOf t
  if isPunct tk.surf then none
  else if tk.pos = "名詞" ∨ tk.pos = "動詞" ∨ tk.pos = "形容詞" then
    let head := if tk.pos = "動詞" ∨ tk.pos = "形容詞" then tk.lem else tk.surf
    if head ≠ "" ∧ ¬ STOP_TERMS.contains head then some (head, tk.reading, tk.pos)
    else none
  else none

def singlesOf (toks : List MNode) : List (String × String × String) :=
  toks.filterMap singleOf

/-- The single-word section of the extractor: POS filter, stop/empty-term
filter, frequency count, majority reading, `min_freq` threshold and the
frequency-plus-length score, followed by the stable descending sort. -/
def rankedSingles (toks : List MNode) (minFreq : Nat) : List Cand :=
  let singles := singlesOf toks
  let freq := countOcc (singles.map (fun s => s.1))
  let ranked := freq.filterMap fun p =>
    if p.2 < minFreq then none
    else some (p.1, bestReading singles p.1, 10 * p.2 + 10 * min 2 (p.1.length / 2))
  sortDesc ranked

/-- The phrase section of the extractor. -/
def phraseCands (toks : List MNode) (maxNgramLen : Nat) : List Cand :=
  let seq := toks.filterMap fun t => if isPunct t.surface then none else some (tokOf t)
  (nounRuns seq []).map scorePhrase ++ adjNounPairs seq ++ ngramCands seq maxNgramLen

/-- `extractor.extract_candidates_from_japanese_text`, starting from the
token sequence returned by the tokenizer adapter. -/
def extractCandidatesFromJapaneseText (toks : List MNode) (topK minFreq : Nat)
    (allowPhrases : Bool) (maxNgramLen : Nat) : List (String × String) :=
  if toks.isEmpty then []
  else
    let ranked := rankedSingles toks minFreq
    let phraseRanked := if allowPhrases then phraseCands toks maxNgramLen else []
    let d := dedupRanked ranked []
    let combined := sortDesc (d.1 ++ dedupPhrases phraseRanked d.2)
    finalLoop topK combined []

/-! ## Uniqueness-guaranteeing generator (`src/topic_service.py`)

`TopicGeneratorService.generate_rows` orchestrates repeated calls to
`_ask_gpt_for_topic_batch`.  The generative collaborator is external, so
the embedding takes the batch oracle as a function from the attempt index
to the (already parsed and validated) batch of raw 5-field rows.  The
`time.sleep` backoff has no observable effect on the returned value and is
not modelled.  The Jisho enrichment pass is optional
(`augment_row_with_jisho=None` / `gpt_only=True`) and per-row
length-preserving, so the embedding models the unenriched path, which is
what the exact-count contract is about. -/

/-- `topic_service._key`: the normalised `(term, reading)` pair. -/
def tsKey (term reading : String) : String × String := (norm term, norm reading)

/-- The `collected` dictionary: an insertion-ordered association list from
keys to raw 5-field rows (a faithful model of a Python `dict`). -/
abbrev Collected := List ((String × String) × List String)

def hasKey (col : Collected) (k : String × String) : Bool :=
  col.any (fun p => p.1 = k)

/-- Python `(row + ["", "", "", "", ""])[:5]` as a 5-tuple of fields. -/
def pad5 (r : List String) : List String :=
  [r.getD 0 "", r.getD 1 "", r.getD 2 "", r.getD 3 "", r.getD 4 ""]

/-- The per-batch filter-and-collect loop of `generate_rows`: skip
empty-term, avoided or already-collected keys, and break out of the batch
as soon as `count` is reached. -/
def foldBatch (count : Nat) (avoid : List (String × String)) :
    List (List String) → Collected → Collected
  | [], col => col
  | r :: rs, col =>
      let f := pad5 r
      let k := tsKey (f.getD 0 "") (f.getD 1 "")
      if k.1 = "" ∨ avoid.contains k ∨ hasKey col k then
        foldBatch count avoid rs col
      else
        let col := col ++ [(k, f)]
        if count ≤ col.length then col else foldBatch count avoid rs col

/-- The `while len(collected) < count and attempt < 12` loop; `rem` is the
number of rounds still allowed (`12 - attempt`), `attempt` the number of
rounds already made. -/
def genLoop (batches : Nat → List (List String)) (count : Nat)
    (avoid : List (String × String)) : Nat → Nat → Collected → Collected
  | 0, _, col => col
  | rem + 1, attempt, col =>
      if col.length < count then
        let attempt := attempt + 1
        let col := foldBatch count avoid (batches attempt) col
        genLoop batches count avoid rem attempt col
      else col

/-- `TopicGeneratorService.generate_rows` (unenriched path): 12 bounded
rounds, one final oversized pass if still short, then truncation to
`count`.  Note the function is total — the source has no raise path. -/
def generateRows (batches : Nat → List (List String)) (count : Nat)
    (existing_keys : List (String × String)) : List (List String) :=
  let col := genLoop batches count existing_keys 12 0 []
  let col := if col.length < count then foldBatch count existing_keys (batches 13) col else col
  ((col.map Prod.snd).take count)

/-! ## Lenient JSON repair parser (`topic_service._lenient_json_loads`)

`json.loads` is modelled by a fuel-based recursive-descent parser over
`List Char` returning `Option JVal` (`none` = a raised exception).  Number
literals are kept as their source text; duplicate object keys are kept in
order (Python would keep the last — no claim depends on this).  The three
`re.sub` passes of the source are modelled as left-to-right non-overlapping
scanners with the exact match semantics of the patterns involved. -/

/-- A parsed JSON value. -/
inductive JVal where
  | null
  | bool (b : Bool)
  | num (lit : String)
  | str (s : String)
  | arr (elems : List JVal)
  | obj (members : List (String × JVal))

/-- JSON insignificant whitespace. -/
def skipWs (cs : List Char) : List Char :=
  cs.dropWhile (fun c => c = ' ' || c = '\t' || c = '\n' || c = '\r')

/-- Translation of a single-character JSON escape. -/
def escChar (e : Char) : Option Char :=
  if e = '"' then some '"'
  else if e = '\\' then some '\\'
  else if e = '/' then some '/'
  else if e = 'b' then some '\x08'
  else if e = 'f' then some '\x0c'
  else if e = 'n' then some '\n'
  else if e = 'r' then some '\r'
  else if e = 't' then some '\t'
  else none

def hexVal (c : Char) : Option Nat :=
  if '0' ≤ c ∧ c ≤ '9' then some (c.toNat - '0'.toNat)
  else if 'a' ≤ c ∧ c ≤ 'f' then some (c.toNat - 'a'.toNat + 10)
  else if 'A' ≤ c ∧ c ≤ 'F' then some (c.toNat - 'A'.toNat + 10)
  else none

/-- The four-hex-digit code of a `\u` escape, if well-formed. -/
def hex4 (h1 h2 h3 h4 : Char) : Option Nat :=
  match hexVal h1, hexVal h2, hexVal h3, hexVal h4 with
  | some a, some b, some c, some d => some ((((a * 16 + b) * 16 + c) * 16 + d))
  | _, _, _, _ => none

/-- Body of a JSON string literal, after the opening quote; returns the
decoded string and the characters after the closing quote. -/
def parseStringBody : List Char → Option (String × List Char)
  | [] => none
  | c :: rest =>
      if c = '"' then some ("", rest)
      else if c = '\\' then
        match rest with
        | [] => none
        | e :: rest2 =>
            if e = 'u' then
              match rest2 with
              | h1 :: h2 :: h3 :: h4 :: rest3 =>
                  (match hex4 h1 h2 h3 h4 with
                   | some n =>
                      (parseStringBody rest3).map fun p =>
                        (⟨Char.ofNat n :: p.1.toList⟩, p.2)
                   | none => none)
              | _ => none
            else
              match escChar e with
              | some ec => (parseStringBody rest2).map fun p => (⟨ec :: p.1.toList⟩, p.2)
              | none => none
      else (parseStringBody rest).map fun p => (⟨c :: p.1.toList⟩, p.2)

/-- The optional fraction part `(?:\.\d+)?` of a JSON number: consumed only
when the dot is followed by at least one digit. -/
def fracSpan (rest : List Char) : List Char × List Char :=
  match rest with
  | c :: r2 =>
      if c = '.' then
        let fd := r2.takeWhile Char.isDigit
        if fd.isEmpty then ([], rest)
        else ('.' :: fd, r2.dropWhile Char.isDigit)
      else ([], rest)
  | [] => ([], rest)

/-- The optional exponent part `(?:[eE][-+]?\d+)?` of a JSON number. -/
def expSpan (rest : List Char) : List Char × List Char :=
  match rest with
  | e :: r2 =>
      if e = 'e' ∨ e = 'E' then
        let sr := match r2 with
          | s :: r3 => if s = '+' ∨ s = '-' then ([s], r3) else (([] : List Char), r2)
          | [] => ([], r2)
        let ed := sr.2.takeWhile Char.isDigit
        if ed.isEmpty then ([], rest)
        else (e :: (sr.1 ++ ed), sr.2.dropWhile Char.isDigit)
      else ([], rest)
  | [] => ([], rest)

/-- A JSON number literal: optional minus, `0` or a non-zero-led digit run,
optional fraction and exponent (maximal munch, as `json`'s `NUMBER_RE`). -/
def parseNumber (cs : List Char) : Option (String × List Char) :=
  let sign := match cs with
    | c :: r => if c = '-' then (['-'], r) else (([] : List Char), cs)
    | [] => (([] : List Char), cs)
  match sign.2 with
  | c :: r =>
      if c = '0' then
        let f := fracSpan r
        let e := expSpan f.2
        some (⟨sign.1 ++ [c] ++ f.1 ++ e.1⟩, e.2)
      else if c.isDigit then
        let ds := r.takeWhile Char.isDigit
        let f := fracSpan (r.dropWhile Char.isDigit)
        let e := expSpan f.2
        some (⟨sign.1 ++ (c :: ds) ++ f.1 ++ e.1⟩, e.2)
      else none
  | [] => none

mutual

/-- A JSON value at a whitespace-skipped position; `none` = parse error. -/
def parseValue : Nat → List Char → Option (JVal × List Char)
  | 0, _ => none
  | fuel + 1, cs =>
      match cs with
      | [] => none
      | c :: rest =>
          if c = '{' then
            (if (skipWs rest).head? = some '}' then some (.obj [], (skipWs rest).tail)
             else parseMembers fuel (skipWs rest) [])
          else if c = '[' then
            (if (skipWs rest).head? = some ']' then some (.arr [], (skipWs rest).tail)
             else parseElems fuel (skipWs rest) [])
          else if c = '"' then (parseStringBody rest).map fun p => (.str p.1, p.2)
          else if ['t', 'r', 'u', 'e'].isPrefixOf (c :: rest) then
            some (.bool true, (c :: rest).drop 4)
          else if ['f', 'a', 'l', 's', 'e'].isPrefixOf (c :: rest) then
            some (.bool false, (c :: rest).drop 5)
          else if ['n', 'u', 'l', 'l'].isPrefixOf (c :: rest) then
            some (.null, (c :: rest).drop 4)
          else if c = '-' ∨ c.isDigit then
            (parseNumber (c :: rest)).map fun p => (.num p.1, p.2)
          else none

/-- Array elements from the first element's position on. -/
def parseElems : Nat → List Char → List JVal → Option (JVal × List Char)
  | 0, _, _ => none
  | fuel + 1, cs, acc =>
      match parseValue fuel cs with
      | none => none
      | some (v, rest) =>
          if (skipWs rest).head? = some ',' then
            parseElems fuel (skipWs (skipWs rest).tail) (acc ++ [v])
          else if (skipWs rest).head? = some ']' then
            some (.arr (acc ++ [v]), (skipWs rest).tail)
          else none

/-- Object members from the first key's position on. -/
def parseMembers : Nat → List Char → List (String × JVal) → Option (JVal × List Char)
  | 0, _, _ => none
  | fuel + 1, cs, acc =>
      match cs with
      | '"' :: rest =>
          (match parseStringBody rest with
           | none => none
           | some (k, r1) =>
               if (skipWs r1).head? = some ':' then
                 (match parseValue fuel (skipWs (skipWs r1).tail) with
                  | none => none
                  | some (v, r3) =>
                      if (skipWs r3).head? = some ',' then
                        parseMembers fuel (skipWs (skipWs r3).tail) (acc ++ [(k, v)])
                      else if (skipWs r3).head? = some '}' then
                        some (.obj (acc ++ [(k, v)]), (skipWs r3).tail)
                      else none)
               else none)
      | _ => none

end

/-- `json.loads`: parse one value and require only whitespace after it. -/
def jsonLoads (s : String) : Option JVal :=
  match parseValue (2 * s.toList.length + 8) (skipWs s.toList) with
  | some (v, rest) => if skipWs rest = [] then some v else none
  | none => none

/-! ### The three `re.sub` repair passes -/

def isWordStart (c : Char) : Bool :=
  ('A' ≤ c ∧ c ≤ 'Z') || ('a' ≤ c ∧ c ≤ 'z') || c = '_'

def isWordChar (c : Char) : Bool :=
  isWordStart c || c.isDigit || c = '-'

/-- Attempt `[A-Za-z_][A-Za-z0-9_-]*\s*:` at the head of `cs`; on success
return the word and the characters after the colon. -/
def tryWordColon (cs : List Char) : Option (List Char × List Char) :=
  match cs with
  | c :: rest =>
      if isWordStart c then
        match (rest.dropWhile isWordChar).dropWhile pyIsSpace with
        | ':' :: r3 => some (c :: rest.takeWhile isWordChar, r3)
        | _ => none
      else none
  | [] => none

/-- The pass `re.sub(r'(?m)(^|\s)([A-Za-z_][A-Za-z0-9_-]*)\s*:', r'\1"\2":', s)`:
quote a bare word followed by a colon when it stands at a line start or
after one whitespace character (which the match keeps). -/
def bareKeyGo : Nat → Bool → List Char → List Char
  | 0, _, cs => cs
  | _ + 1, _, [] => []
  | fuel + 1, lineStart, c :: rest =>
      match (if lineStart then tryWordColon (c :: rest) else none) with
      | some (w, after) => '"' :: w ++ '"' :: ':' :: bareKeyGo fuel false after
      | none =>
          if pyIsSpace c then
            match tryWordColon rest with
            | some (w, after) => c :: '"' :: w ++ '"' :: ':' :: bareKeyGo fuel false after
            | none => c :: bareKeyGo fuel (c = '\n') rest
          else
            c :: bareKeyGo fuel (c = '\n') rest

def bareKeySub (s : String) : String :=
  ⟨bareKeyGo s.toList.length true s.toList⟩

/-- Find the single-quoted content `([^'\\]*(?:\\.[^'\\]*)*)` up to the
next closing quote; `\<newline>` cannot be crossed (`.` does not match a
newline in this pattern). -/
def findCloseQuote : List Char → Option (List Char × List Char)
  | [] => none
  | '\'' :: rest => some ([], rest)
  | '\\' :: e :: rest =>
      if e = '\n' then none
      else (findCloseQuote rest).map fun p => ('\\' :: e :: p.1, p.2)
  | '\\' :: [] => none
  | c :: rest => (findCloseQuote rest).map fun p => (c :: p.1, p.2)

/-- The replacement body of `_flip`: `inner.replace('"', '\\"')`. -/
def quoteEscape (inner : List Char) : List Char :=
  inner.flatMap fun c => if c = '"' then ['\\', '"'] else [c]

/-- The pass converting `'single-quoted strings'` to double-quoted. -/
def quoteFlipGo : Nat → List Char → List Char
  | 0, cs => cs
  | _ + 1, [] => []
  | fuel + 1, c :: rest =>
      if c = '\'' then
        match findCloseQuote rest with
        | some (inner, after) => '"' :: quoteEscape inner ++ '"' :: quoteFlipGo fuel after
        | none => c :: quoteFlipGo fuel rest
      else c :: quoteFlipGo fuel rest

def quoteFlipSub (s : String) : String :=
  ⟨quoteFlipGo s.toList.length s.toList⟩

/-- The pass `re.sub(r",\s*([}\]])", r"\1", s)` removing trailing commas. -/
def trailingCommaGo : Nat → List Char → List Char
  | 0, cs => cs
  | _ + 1, [] => []
  | fuel + 1, c :: rest =>
      if c = ',' then
        match rest.dropWhile pyIsSpace with
        | b :: after =>
            if b = '}' ∨ b = ']' then b :: trailingCommaGo fuel after
            else c :: trailingCommaGo fuel rest
        | [] => c :: trailingCommaGo fuel rest
      else c :: trailingCommaGo fuel rest

def trailingCommaSub (s : String) : String :=
  ⟨trailingCommaGo s.toList.length s.toList⟩

/-! ### `topic_service._extract_json_block` and `_lenient_json_loads` -/

def toLowerAscii (c : Char) : Char :=
  if 'A' ≤ c ∧ c ≤ 'Z' then Char.ofNat (c.toNat + 32) else c

/-- Split at the first occurrence of the non-empty pattern `pat`:
`(characters before, characters after)`. -/
def splitAtSub (pat : List Char) : List Char → Option (List Char × List Char)
  | [] => none
  | c :: rest =>
      if pat.isPrefixOf (c :: rest) then some ([], (c :: rest).drop pat.length)
      else (splitAtSub pat rest).map fun p => (c :: p.1, p.2)

/-- The fenced-block search `re.search(r"```json\s*(.+?)\s*```", ...)` with
DOTALL and IGNORECASE: the content between the first ` ```json ` marker and
the next ` ``` `, stripped (the lazy group plus its `\s*` padding amounts
to stripping for non-degenerate content). -/
def fenceExtract (cs : List Char) : Option String :=
  match splitAtSub "```json".toList (cs.map toLowerAscii) with
  | none => none
  | some p =>
      let start := cs.length - p.2.length
      match splitAtSub "```".toList (cs.drop start) with
      | none => none
      | some q => some (pyStrip ⟨q.1⟩)

def pyFind (c : Char) (cs : List Char) : Int :=
  match cs.findIdx? (· = c) with
  | some i => (i : Int)
  | none => -1

def pyRFind (c : Char) (cs : List Char) : Int :=
  match cs.reverse.findIdx? (· = c) with
  | some i => ((cs.length - 1 - i : Nat) : Int)
  | none => -1

/-- `topic_service._extract_json_block`. -/
def extractJsonBlock (s : String) : String :=
  if s = "" then "\x7b\x7d"
  else
    match fenceExtract s.toList with
    | some content => content
    | none =>
        let cs := s.toList
        let o0 := pyFind '{' cs
        let o1 := pyRFind '}' cs
        let a0 := pyFind '[' cs
        let a1 := pyRFind ']' cs
        if o0 ≠ -1 ∧ o0 < o1 ∧ a1 - a0 ≤ o1 - o0 then
          ⟨(cs.drop o0.toNat).take (o1.toNat + 1 - o0.toNat)⟩
        else if a0 ≠ -1 ∧ a0 < a1 then
          ⟨(cs.drop a0.toNat).take (a1.toNat + 1 - a0.toNat)⟩
        else pyStrip s

/-- The smart-quote normalisation of `_lenient_json_loads`. -/
def smartQuoteNorm (s : String) : String :=
  pyReplace (pyReplace (pyReplace (pyReplace s "“" "\"") "”" "\"") "‘" "'") "’" "'"

/-- `topic_service._lenient_json_loads` (`none` = a raised exception). -/
def lenientJsonLoads (s : String) : Option JVal :=
  if s = "" then some (.obj [])
  else
    let s := smartQuoteNorm s
    let s := pyReplace s " " " "
    let ss := pyStrip s
    let s := if ss.toList.head? = some '[' ∧ ss.toList.getLast? = some ']' then
        "\x7b\"items\":" ++ ss ++ "\x7d"
      else s
    let s := bareKeySub s
    let s := quoteFlipSub s
    let s := trailingCommaSub s
    match jsonLoads s with
    | some v => some v
    | none =>
        let block := extractJsonBlock s
        let block := if block.toList.head? = some '[' then "\x7b\"items\":" ++ block ++ "\x7d" else block
        jsonLoads block

/-! ## Invariants of the merge loop state -/

/-- Every index entry points inside `merged`, at a row carrying exactly
that key and a non-empty term. -/
def IdxSound (st : MergeState) : Prop :=
  ∀ k i, st.index k = some i →
    i < st.merged.length ∧ rowKey (st.merged.getD i emptyRow) = k ∧
      (st.merged.getD i emptyRow).term ≠ ""

/-- Every merged row with a non-empty term is indexed under its key. -/
def IdxComplete (st : MergeState) : Prop :=
  ∀ i, i < st.merged.length →
    (st.merged.getD i emptyRow).term ≠ "" →
      st.index (rowKey (st.merged.getD i emptyRow)) ≠ none

def StInv (st : MergeState) : Prop := IdxSound st ∧ IdxComplete st

/-- A character that cannot extend a JSON number literal to its left. -/
def numSafeBreak (c : Char) : Prop :=
  c.isDigit = false ∧ c ≠ '.' ∧ c ≠ 'e' ∧ c ≠ 'E'

/-- Appending text after a parsed value is harmless unless the value is a
number sitting at the very end (or up against an extending character):
maximal-munch number parsing could then swallow the appended text. -/
def SafeRest : JVal → List Char → Prop
  | .num _, rest => ∃ b t, rest = b :: t ∧ numSafeBreak b
  | _, _ => True

/-! # Theorems -/

theorem strOr_self (a : String) : strOr a a = a := by
  simp [strOr]

theorem getD_concat_self {α : Type} (l : List α) (a d : α) :
    (l ++ [a]).getD l.length d = a := by
  rw [List.getD_eq_getElem _ _ (by simp)]
  simp

theorem getD_append_left {α : Type} (l l2 : List α) (i : Nat) (d : α) (h : i < l.length) :
    (l ++ l2).getD i d = l.getD i d := by
  rw [List.getD_eq_getElem _ _ (by simp; omega), List.getD_eq_getElem _ _ h]
  exact List.getElem_append_left h

theorem getD_set_self {α : Type} (l : List α) (i : Nat) (x d : α) (h : i < l.length) :
    (l.set i x).getD i d = x := by
  rw [List.getD_eq_getElem _ _ (by simpa)]
  exact List.getElem_set_self _

theorem getD_set_ne {α : Type} (l : List α) (i j : Nat) (x d : α) (h : i ≠ j) :
    (l.set i x).getD j d = l.getD j d := by
  by_cases hj : j < l.length
  · rw [List.getD_eq_getElem _ _ (by simpa), List.getD_eq_getElem _ _ hj]
    exact List.getElem_set_ne h _
  · rw [List.getD_eq_default _ _ (by simpa using hj), List.getD_eq_default _ _ (by omega)]

theorem list_set_self {α : Type} (l : List α) (i : Nat) (h : i < l.length) :
    l.set i l[i] = l := by
  apply List.ext_getElem
  · simp
  · intro n h1 h2
    by_cases hn : n = i
    · subst hn; simp [List.getElem_set_self]
    · simp [List.getElem_set_ne (by omega : i ≠ n)]

theorem foldl_fixed {α β : Type} (f : β → α → β) (st : β) :
    ∀ rows : List α, (∀ r ∈ rows, f st r = st) → rows.foldl f st = st := by
  intro rows
  induction rows with
  | nil => intro _; rfl
  | cons r rs ih =>
      intro h
      have h1 : f st r = st := h r (List.mem_cons_self r rs)
      simp only [List.foldl_cons, h1]
      exact ih fun x hx => h x (List.mem_cons_of_mem r hx)

theorem seedStep_merged (st : MergeState) (r : List String) :
    (seedStep st r).merged = st.merged ++ [canonRow r] := rfl

/-- Seeding appends the canonical rows in order and touches no counter. -/
theorem seed_fold_shape (rows : List (List String)) :
    ∀ st : MergeState,
      (rows.foldl seedStep st).merged = st.merged ++ rows.map canonRow ∧
      (rows.foldl seedStep st).added = st.added ∧
      (rows.foldl seedStep st).updated = st.updated ∧
      (rows.foldl seedStep st).addedKeys = st.addedKeys := by
  induction rows with
  | nil => intro st; simp
  | cons r rs ih =>
      intro st
      have h := ih (seedStep st r)
      have hm : (seedStep st r).merged = st.merged ++ [canonRow r] := rfl
      have ha : (seedStep st r).added = st.added := rfl
      have hu : (seedStep st r).updated = st.updated := rfl
      have hk : (seedStep st r).addedKeys = st.addedKeys := rfl
      simp only [List.foldl_cons]
      refine ⟨?_, ?_, ?_, ?_⟩
      · rw [h.1, hm]; simp
      · rw [h.2.1, ha]
      · rw [h.2.2.1, hu]
      · rw [h.2.2.2, hk]

theorem seedState_shape (existing : List (List String)) :
    (seedState existing).merged = existing.map canonRow ∧
    (seedState existing).added = 0 ∧
    (seedState existing).updated = 0 ∧
    (seedState existing).addedKeys = [] := by
  have h := seed_fold_shape existing initState
  simpa [seedState, initState] using h

theorem seedStep_inv (st : MergeState) (r : List String) (h : StInv st) :
    StInv (seedStep st r) := by
  obtain ⟨hs, hc⟩ := h
  have hlen : (seedStep st r).merged.length = st.merged.length + 1 := by
    rw [seedStep_merged]; simp
  have hidx : (seedStep st r).index = (if (canonRow r).term ≠ "" then
      (fun k => if k = ((canonRow r).term, (canonRow r).reading) then
        some st.merged.length else st.index k)
    else st.index) := rfl
  constructor
  · intro k i hk
    rw [hidx] at hk
    by_cases ht : (canonRow r).term ≠ ""
    · rw [if_pos ht] at hk
      by_cases hkk : k = ((canonRow r).term, (canonRow r).reading)
      · rw [if_pos hkk] at hk
        have hi : i = st.merged.length := (Option.some.inj hk).symm
        subst hi
        rw [seedStep_merged, getD_concat_self]
        refine ⟨by simp, ?_, ht⟩
        rw [hkk, rowKey]
      · rw [if_neg hkk] at hk
        obtain ⟨hi, hkey, hterm⟩ := hs k i hk
        rw [seedStep_merged, getD_append_left _ _ _ _ hi]
        exact ⟨by simp; omega, hkey, hterm⟩
    · rw [if_neg ht] at hk
      obtain ⟨hi, hkey, hterm⟩ := hs k i hk
      rw [seedStep_merged, getD_append_left _ _ _ _ hi]
      exact ⟨by simp; omega, hkey, hterm⟩
  · intro i hi hterm
    by_cases hlt : i < st.merged.length
    · rw [seedStep_merged, getD_append_left _ _ _ _ hlt] at hterm ⊢
      have hold := hc i hlt hterm
      rw [hidx]
      by_cases ht : (canonRow r).term ≠ ""
      · rw [if_pos ht]
        by_cases hkk : rowKey (st.merged.getD i emptyRow) = ((canonRow r).term, (canonRow r).reading)
        · rw [hkk]; simp
        · simp only [if_neg hkk]; exact hold
      · rw [if_neg ht]; exact hold
    · have hieq : i = st.merged.length := by rw [hlen] at hi; omega
      subst hieq
      rw [seedStep_merged, getD_concat_self] at hterm ⊢
      rw [hidx, if_pos hterm]
      simp [rowKey]

/-- Python `or` on equal strings keeps the left operand. -/
theorem strOr_left_of_eq (a b : String) (h : a = b) : strOr a b = a := by
  rw [strOr]; split_ifs with he
  · exact h.symm
  · rfl

theorem strOr_right_of_eq (a b : String) (h : a = b) : strOr b a = a := by
  rw [strOr]; split_ifs with he
  · rfl
  · exact h.symm

/-- Conflict resolution never changes the key of the stored row: when the
old row carries the incoming key, every policy keeps term and reading. -/
theorem resolveRow_key (fb pi : Bool) (old rin : Row)
    (hterm : old.term = rin.term) (hread : old.reading = rin.reading) :
    (resolveRow fb pi old rin).term = old.term ∧
    (resolveRow fb pi old rin).reading = old.reading := by
  cases fb with
  | true =>
      exact ⟨strOr_left_of_eq _ _ hterm, strOr_left_of_eq _ _ hread⟩
  | false =>
      cases pi with
      | true =>
          exact ⟨strOr_right_of_eq _ _ hterm, strOr_right_of_eq _ _ hread⟩
      | false =>
          constructor
          · show (if rin.term ≠ "" ∧ rin.term ≠ old.term then rin.term else old.term) = old.term
            rw [if_neg]; intro hcon; exact hcon.2 hterm.symm
          · show (if rin.reading ≠ "" ∧ rin.reading ≠ old.reading then rin.reading
                else old.reading) = old.reading
            rw [if_neg]; intro hcon; exact hcon.2 hread.symm

/-- Reduction of `mergeStep` on an empty canonical term. -/
theorem mergeStep_skip (fb pi : Bool) (st : MergeState) (r : List String)
    (ht : (canonRow r).term = "") : mergeStep fb pi st r = st := by
  simp [mergeStep, ht]

/-- Reduction of `mergeStep` on a key hit. -/
theorem mergeStep_hit (fb pi : Bool) (st : MergeState) (r : List String) (i : Nat)
    (ht : ¬ (canonRow r).term = "")
    (hidx : st.index ((canonRow r).term, (canonRow r).reading) = some i) :
    mergeStep fb pi st r =
      (if resolveRow fb pi (st.merged.getD i emptyRow) (canonRow r) ≠ st.merged.getD i emptyRow
       then { st with
              merged := st.merged.set i
                (resolveRow fb pi (st.merged.getD i emptyRow) (canonRow r))
              updated := st.updated + 1 }
       else st) := by
  simp only [mergeStep, if_neg ht, hidx]

/-- Reduction of `mergeStep` on a key miss. -/
theorem mergeStep_miss (fb pi : Bool) (st : MergeState) (r : List String)
    (ht : ¬ (canonRow r).term = "")
    (hidx : st.index ((canonRow r).term, (canonRow r).reading) = none) :
    mergeStep fb pi st r =
      { merged := st.merged ++ [canonRow r]
        index := fun k => if k = ((canonRow r).term, (canonRow r).reading) then
            some st.merged.length else st.index k
        added := st.added + 1
        updated := st.updated
        addedKeys := st.addedKeys ++ [((canonRow r).term, (canonRow r).reading)] } := by
  simp only [mergeStep, if_neg ht, hidx]

/-- One incoming row preserves the state invariant, leaves the stored key
sequence unchanged except for appending fresh keys, and keeps the added
counter and added-key list in lock-step with those appends. -/
theorem mergeStep_master (fb pi : Bool) (st : MergeState) (r : List String) (h : StInv st) :
    StInv (mergeStep fb pi st r) ∧
    ∃ ks : List (String × String),
      (mergeStep fb pi st r).merged.map rowKey = st.merged.map rowKey ++ ks ∧
      (mergeStep fb pi st r).addedKeys = st.addedKeys ++ ks ∧
      (mergeStep fb pi st r).added = st.added + ks.length ∧
      (∀ k ∈ ks, k ∉ st.merged.map rowKey) ∧ ks.Nodup := by
  obtain ⟨hs, hc⟩ := h
  by_cases ht : (canonRow r).term = ""
  · rw [mergeStep_skip fb pi st r ht]
    exact ⟨⟨hs, hc⟩, [], by simp, by simp, by simp, by simp⟩
  · cases hidx : st.index ((canonRow r).term, (canonRow r).reading) with
    | some i =>
        obtain ⟨hi, hkey, hterm⟩ := hs _ _ hidx
        have hk1 : (st.merged.getD i emptyRow).term = (canonRow r).term :=
          congrArg Prod.fst hkey
        have hk2 : (st.merged.getD i emptyRow).reading = (canonRow r).reading :=
          congrArg Prod.snd hkey
        have hkeep := resolveRow_key fb pi (st.merged.getD i emptyRow) (canonRow r) hk1 hk2
        have hnewkey : rowKey (resolveRow fb pi (st.merged.getD i emptyRow) (canonRow r)) =
            rowKey (st.merged.getD i emptyRow) := by
          rw [rowKey, rowKey, hkeep.1, hkeep.2]
        rw [mergeStep_hit fb pi st r i ht hidx]
        by_cases hne : resolveRow fb pi (st.merged.getD i emptyRow) (canonRow r) =
            st.merged.getD i emptyRow
        · rw [if_neg (by simpa using hne)]
          exact ⟨⟨hs, hc⟩, [], by simp, by simp, by simp, by simp, List.nodup_nil⟩
        · rw [if_pos hne]
          have hgd : st.merged.getD i emptyRow = st.merged[i] :=
            List.getD_eq_getElem st.merged emptyRow hi
          have hmapset : (st.merged.set i
              (resolveRow fb pi (st.merged.getD i emptyRow) (canonRow r))).map rowKey =
              st.merged.map rowKey := by
            rw [List.map_set]
            have hi2 : i < (st.merged.map rowKey).length := by simpa using hi
            have hv : rowKey (resolveRow fb pi (st.merged.getD i emptyRow) (canonRow r)) =
                (st.merged.map rowKey)[i] := by
              rw [hnewkey, hgd]; simp
            rw [hv]
            exact list_set_self _ i hi2
          refine ⟨⟨?_, ?_⟩, [], by simpa using hmapset, by simp, by simp, by simp,
            List.nodup_nil⟩
          · intro k j hkj
            obtain ⟨hj, hjkey, hjterm⟩ := hs k j hkj
            refine ⟨by simpa using hj, ?_, ?_⟩
            · by_cases hji : j = i
              · subst hji
                rw [getD_set_self _ _ _ _ hj, hnewkey]
                exact hjkey
              · rw [getD_set_ne _ _ _ _ _ (fun he => hji he.symm)]
                exact hjkey
            · by_cases hji : j = i
              · subst hji
                rw [getD_set_self _ _ _ _ hj, hkeep.1]
                exact hjterm
              · rw [getD_set_ne _ _ _ _ _ (fun he => hji he.symm)]
                exact hjterm
          · intro j hj hjterm
            have hj2 : j < st.merged.length := by simpa using hj
            by_cases hji : j = i
            · subst hji
              rw [getD_set_self _ _ _ _ hj2] at hjterm ⊢
              rw [hnewkey]
              simpa [hidx] using hc j hj2 hterm
            · rw [getD_set_ne _ _ _ _ _ (fun he => hji he.symm)] at hjterm ⊢
              exact hc j hj2 hjterm
    | none =>
        have hfresh : ((canonRow r).term, (canonRow r).reading) ∉ st.merged.map rowKey := by
          intro hmem
          obtain ⟨row, hrow, hrkey⟩ := List.mem_map.mp hmem
          obtain ⟨j, hj, hje⟩ := List.getElem_of_mem hrow
          have hgd : st.merged.getD j emptyRow = row := by
            rw [List.getD_eq_getElem st.merged emptyRow hj, hje]
          have hterm2 : (st.merged.getD j emptyRow).term ≠ "" := by
            rw [hgd]
            have hte : row.term = (canonRow r).term := congrArg Prod.fst hrkey
            rw [hte]; exact ht
          have hcon := hc j hj hterm2
          rw [hgd, hrkey] at hcon
          exact hcon hidx
        rw [mergeStep_miss fb pi st r ht hidx]
        refine ⟨⟨?_, ?_⟩, [((canonRow r).term, (canonRow r).reading)], by simp [rowKey], by simp,
          by simp, ?_, List.nodup_singleton _⟩
        · intro k j hkj
          by_cases hkk : k = ((canonRow r).term, (canonRow r).reading)
          · simp only [if_pos hkk] at hkj
            have hj : j = st.merged.length := (Option.some.inj hkj).symm
            subst hj
            rw [getD_concat_self]
            exact ⟨by simp, by rw [hkk, rowKey], ht⟩
          · simp only [if_neg hkk] at hkj
            obtain ⟨hj, hjkey, hjterm⟩ := hs k j hkj
            rw [getD_append_left _ _ _ _ hj]
            exact ⟨by simp; omega, hjkey, hjterm⟩
        · intro j hj hjterm
          by_cases hlt : j < st.merged.length
          · rw [getD_append_left _ _ _ _ hlt] at hjterm ⊢
            have hold := hc j hlt hjterm
            by_cases hkk : rowKey (st.merged.getD j emptyRow) =
                ((canonRow r).term, (canonRow r).reading)
            · rw [hkk]; simp
            · simp only [if_neg hkk]; exact hold
          · have hje : j = st.merged.length := by simp at hj; omega
            subst hje
            rw [getD_concat_self] at hjterm ⊢
            simp [rowKey]
        · intro k hk
          have hke : k = ((canonRow r).term, (canonRow r).reading) := by simpa using hk
          rw [hke]; exact hfresh

/-- `mergeStep_master`, folded over the whole incoming collection. -/
theorem mergeFold_master (fb pi : Bool) (rows : List (List String)) :
    ∀ st : MergeState, StInv st →
      StInv (rows.foldl (mergeStep fb pi) st) ∧
      ∃ ks : List (String × String),
        (rows.foldl (mergeStep fb pi) st).merged.map rowKey = st.merged.map rowKey ++ ks ∧
        (rows.foldl (mergeStep fb pi) st).addedKeys = st.addedKeys ++ ks ∧
        (rows.foldl (mergeStep fb pi) st).added = st.added + ks.length ∧
        (∀ k ∈ ks, k ∉ st.merged.map rowKey) ∧ ks.Nodup := by
  induction rows with
  | nil =>
      intro st h
      exact ⟨h, [], by simp, by simp, by simp, by simp, List.nodup_nil⟩
  | cons r rs ih =>
      intro st h
      obtain ⟨h1, ks1, hm1, ha1, hc1, hf1, hn1⟩ := mergeStep_master fb pi st r h
      obtain ⟨h2, ks2, hm2, ha2, hc2, hf2, hn2⟩ := ih (mergeStep fb pi st r) h1
      rw [List.foldl_cons]
      refine ⟨h2, ks1 ++ ks2, ?_, ?_, ?_, ?_, ?_⟩
      · rw [hm2, hm1, List.append_assoc]
      · rw [ha2, ha1, List.append_assoc]
      · rw [hc2, hc1, List.length_append]; omega
      · intro k hk
        rcases List.mem_append.mp hk with hk1 | hk2
        · exact hf1 k hk1
        · intro hmem
          exact hf2 k hk2 (by rw [hm1]; exact List.mem_append_left _ hmem)
      · refine List.Nodup.append hn1 hn2 ?_
        intro k hk1 hk2
        exact hf2 k hk2 (by rw [hm1]; exact List.mem_append_right _ hk1)

theorem initState_inv : StInv initState := by
  constructor
  · intro k i hk; simp [initState] at hk
  · intro i hi; simp [initState] at hi

theorem seedState_inv (existing : List (List String)) : StInv (seedState existing) := by
  have h : ∀ rows : List (List String), ∀ st : MergeState,
      StInv st → StInv (rows.foldl seedStep st) := by
    intro rows
    induction rows with
    | nil => intro st h; exact h
    | cons r rs ih => intro st h; exact ih (seedStep st r) (seedStep_inv st r h)
  exact h existing initState initState_inv

/-- `resolveRow` under `fill_blank_only` is the identity on a self-merge. -/
theorem resolveRow_fb_self (pi : Bool) (x : Row) : resolveRow true pi x x = x := by
  show ({ term := strOr x.term x.term
          reading := strOr x.reading x.reading
          meaning := strOr x.meaning x.meaning
          ex := strOr x.ex x.ex
          jlpt := strOr x.jlpt x.jlpt } : Row) = x
  rw [strOr_self, strOr_self, strOr_self, strOr_self, strOr_self]

/-! ### Claim theorems for the merge engine -/

/-- C2: the JLPT normaliser maps `"n2"` and `"JLPT N2"` to `"N2"` and
collapses `"N6"` and `""` to `""` as the spec says, but it maps `" N-2 "`
and `"Ｎ２"` to `""` — the hyphen is never removed and the full-width
digit `２` is never converted, although the code's own comment says it
normalises things like `"n-2"` and `"n２"`. -/
theorem norm_jlpt_eval :
    normJlpt "n2" = "N2" ∧ normJlpt " N-2 " = "" ∧ normJlpt "JLPT N2" = "N2" ∧
    normJlpt "Ｎ２" = "" ∧ normJlpt "N6" = "" ∧ normJlpt "" = "" := by
  decide

/-- C1: `generate_rows` has no raise path — when the generative
collaborator yields no usable rows in any of the 12 bounded rounds nor in
the final oversized pass, the function silently returns an empty list
instead of the documented exact `count` (here 1) and instead of the
stall error required by the spec; `generateRows` is total by
construction, so no error can be raised on any input. -/
theorem generate_rows_silent_shortfall :
    generateRows (fun _ => []) 1 [] = [] ∧
    (generateRows (fun _ => []) 1 []).length = 0 ∧
    (generateRows (fun _ => []) 30 []).length = 0 := by
  decide

/-- C3 (amended): after a merge the rows carry pairwise-distinct Keys,
provided the canonicalised existing rows already had pairwise-distinct
Keys; duplicate Keys already present in the existing collection survive
the merge untouched. -/
theorem merge_rows_key_uniqueness (existing incoming : List (List String)) (fb pi : Bool)
    (h : ((existing.map canonRow).map rowKey).Nodup) :
    ((mergeRows existing incoming fb pi).merged.map rowKey).Nodup := by
  obtain ⟨hseedm, _, _, _⟩ := seedState_shape existing
  obtain ⟨_, ks, hm, _, _, hf, hn⟩ :=
    mergeFold_master fb pi incoming (seedState existing) (seedState_inv existing)
  show ((incoming.foldl (mergeStep fb pi) (seedState existing)).merged.map rowKey).Nodup
  rw [hm, hseedm]
  refine List.Nodup.append h hn ?_
  intro k hk1 hk2
  exact hf k hk2 (by rw [hseedm]; exact hk1)

/-- C3 (counterexample): when the existing collection itself contains two
rows with the same Key, the merged output keeps both, so the claim as
stated — which includes that very case — is false. -/
theorem merge_rows_key_uniqueness_cex :
    ¬ ((mergeRows [["a", "r"], ["a", "r"]] [] true false).merged.map rowKey).Nodup := by
  decide

theorem merge_rows_key_uniqueness_witness :
    ((mergeRows [["a", "r"]] [["b", "s"]] false false).merged.map rowKey).Nodup :=
  merge_rows_key_uniqueness [["a", "r"]] [["b", "s"]] false false (by decide)

/-- C6 (amended): the merged collection keeps one position per existing
row (updates happen in place and never change a position's Key) followed
by one position per added key in addition order, so its length is the
existing length plus the added count; the rows sitting in the appended
positions entered as canonicalised incoming rows but may have been
further field-updated by later incoming rows with the same Key. -/
theorem merge_rows_order_shape (existing incoming : List (List String)) (fb pi : Bool) :
    (mergeRows existing incoming fb pi).merged.length =
      existing.length + (mergeRows existing incoming fb pi).added ∧
    ((mergeRows existing incoming fb pi).merged.map rowKey).take existing.length =
      (existing.map canonRow).map rowKey ∧
    ((mergeRows existing incoming fb pi).merged.map rowKey).drop existing.length =
      (mergeRows existing incoming fb pi).addedKeys := by
  obtain ⟨hseedm, hseeda, _, hseedk⟩ := seedState_shape existing
  obtain ⟨_, ks, hm, hk, ha, _, _⟩ :=
    mergeFold_master fb pi incoming (seedState existing) (seedState_inv existing)
  have hm2 : (mergeRows existing incoming fb pi).merged.map rowKey =
      ((existing.map canonRow).map rowKey) ++ ks := by
    show (incoming.foldl (mergeStep fb pi) (seedState existing)).merged.map rowKey = _
    rw [hm, hseedm]
  have hk2 : (mergeRows existing incoming fb pi).addedKeys = ks := by
    show (incoming.foldl (mergeStep fb pi) (seedState existing)).addedKeys = ks
    rw [hk, hseedk]; simp
  have ha2 : (mergeRows existing incoming fb pi).added = ks.length := by
    show (incoming.foldl (mergeStep fb pi) (seedState existing)).added = ks.length
    rw [ha, hseeda]; simp
  have hpre : ((existing.map canonRow).map rowKey).length = existing.length := by simp
  refine ⟨?_, ?_, ?_⟩
  · have hlm : (mergeRows existing incoming fb pi).merged.length =
        ((mergeRows existing incoming fb pi).merged.map rowKey).length := by simp
    rw [hlm, hm2, List.length_append, hpre, ha2]
  · rw [hm2, ← hpre]
    exact List.take_left ..
  · rw [hm2, hk2, ← hpre]
    exact List.drop_left ..

/-- C6 (counterexample): with no existing rows and two incoming rows of
the same Key under the default policy, exactly the first incoming row is
added, yet the merged collection is not the list of canonicalised added
incoming rows — the later duplicate Key updated the appended row's JLPT
field in place. -/
theorem merge_rows_order_shape_cex :
    (mergeRows [] [["a", "r", "x", "", ""], ["a", "r", "", "", "N2"]] false false).added = 1 ∧
    (mergeRows [] [["a", "r", "x", "", ""], ["a", "r", "", "", "N2"]] false false).addedKeys =
      [("a", "r")] ∧
    (mergeRows [] [["a", "r", "x", "", ""], ["a", "r", "", "", "N2"]] false false).merged ≠
      [canonRow ["a", "r", "x", "", ""]] := by
  decide

/-- C4 (amended): merging a collection with itself under
`fill_blank_only` adds and updates nothing, provided the canonicalised
rows have pairwise-distinct Keys; with duplicate Keys inside the
collection a self-merge can count spurious updates. -/
theorem merge_rows_self_idempotent (R : List (List String))
    (h : ((R.map canonRow).map rowKey).Nodup) :
    (mergeRows R R true false).added = 0 ∧ (mergeRows R R true false).updated = 0 := by
  obtain ⟨hseedm, hseeda, hseedu, _⟩ := seedState_shape R
  have hkeys : ((seedState R).merged.map rowKey).Nodup := by rw [hseedm]; exact h
  have hfix : R.foldl (mergeStep true false) (seedState R) = seedState R := by
    apply foldl_fixed
    intro r hr
    by_cases ht : (canonRow r).term = ""
    · exact mergeStep_skip true false (seedState R) r ht
    · have hmem : canonRow r ∈ (seedState R).merged := by
        rw [hseedm]; exact List.mem_map_of_mem canonRow hr
      obtain ⟨j, hj, hje⟩ := List.getElem_of_mem hmem
      have hgdj : (seedState R).merged.getD j emptyRow = canonRow r := by
        rw [List.getD_eq_getElem _ _ hj, hje]
      have htj : ((seedState R).merged.getD j emptyRow).term ≠ "" := by rw [hgdj]; exact ht
      have hne := (seedState_inv R).2 j hj htj
      rw [hgdj] at hne
      obtain ⟨i, hidx⟩ := Option.ne_none_iff_exists'.mp hne
      have hidx2 : (seedState R).index ((canonRow r).term, (canonRow r).reading) = some i := hidx
      obtain ⟨hi, hkey, _⟩ := (seedState_inv R).1 _ i hidx2
      have hi2 : i < ((seedState R).merged.map rowKey).length := by simpa using hi
      have hj2 : j < ((seedState R).merged.map rowKey).length := by simpa using hj
      have hgi : ((seedState R).merged.map rowKey)[i] = rowKey (canonRow r) := by
        rw [List.getElem_map, ← List.getD_eq_getElem _ emptyRow hi]
        exact hkey
      have hgj : ((seedState R).merged.map rowKey)[j] = rowKey (canonRow r) := by
        rw [List.getElem_map, hje]
      have hij : i = j := by
        have hf := (List.Nodup.get_inj_iff hkeys
          (i := ⟨i, by simpa using hi⟩) (j := ⟨j, by simpa using hj⟩)).mp
          (by rw [List.get_eq_getElem, List.get_eq_getElem]; rw [hgi, hgj])
        exact congrArg Fin.val hf
      have hgdi : (seedState R).merged.getD i emptyRow = canonRow r := by
        rw [List.getD_eq_getElem _ _ hi]
        subst hij
        rw [← List.getD_eq_getElem _ emptyRow hi, hgdj]
      rw [mergeStep_hit true false (seedState R) r i ht hidx2]
      rw [if_neg (by
        rw [hgdi]
        exact not_not_intro (resolveRow_fb_self false (canonRow r)))]
  constructor
  · show (R.foldl (mergeStep true false) (seedState R)).added = 0
    rw [hfix, hseeda]
  · show (R.foldl (mergeStep true false) (seedState R)).updated = 0
    rw [hfix, hseedu]

/-- C4 (counterexample): a collection whose two rows share a Key but
differ in the meaning field counts one update when self-merged under
`fill_blank_only`, so the unconditional claim is false. -/
theorem merge_rows_self_idempotent_cex :
    ¬ ((mergeRows [["a", "r", "x"], ["a", "r"]] [["a", "r", "x"], ["a", "r"]] true false).added = 0 ∧
       (mergeRows [["a", "r", "x"], ["a", "r"]] [["a", "r", "x"], ["a", "r"]] true false).updated = 0) := by
  decide

theorem merge_rows_self_idempotent_witness :
    (mergeRows [["a", "r", "m", "e", "N2"], ["b", "r"]] [["a", "r", "m", "e", "N2"], ["b", "r"]]
      true false).added = 0 ∧
    (mergeRows [["a", "r", "m", "e", "N2"], ["b", "r"]] [["a", "r", "m", "e", "N2"], ["b", "r"]]
      true false).updated = 0 :=
  merge_rows_self_idempotent [["a", "r", "m", "e", "N2"], ["b", "r"]] (by decide)

/-- C5: under the default policy (`fill_blank_only = false`,
`prefer_incoming = false`), a key hit resolves each of the five fields to
the incoming field exactly when the incoming field is non-empty and
differs from the existing one (and to the existing field otherwise), and
the updated counter grows by one exactly when that resolved row differs
from the previously stored row. -/
theorem merge_default_policy (st : MergeState) (r : List String) (i : Nat)
    (ht : ¬ (canonRow r).term = "")
    (hidx : st.index ((canonRow r).term, (canonRow r).reading) = some i)
    (hi : i < st.merged.length) :
    (mergeStep false false st r).merged.getD i emptyRow =
      { term := if (canonRow r).term ≠ "" ∧
            (canonRow r).term ≠ (st.merged.getD i emptyRow).term
          then (canonRow r).term else (st.merged.getD i emptyRow).term
        reading := if (canonRow r).reading ≠ "" ∧
            (canonRow r).reading ≠ (st.merged.getD i emptyRow).reading
          then (canonRow r).reading else (st.merged.getD i emptyRow).reading
        meaning := if (canonRow r).meaning ≠ "" ∧
            (canonRow r).meaning ≠ (st.merged.getD i emptyRow).meaning
          then (canonRow r).meaning else (st.merged.getD i emptyRow).meaning
        ex := if (canonRow r).ex ≠ "" ∧
            (canonRow r).ex ≠ (st.merged.getD i emptyRow).ex
          then (canonRow r).ex else (st.merged.getD i emptyRow).ex
        jlpt := if (canonRow r).jlpt ≠ "" ∧
            (canonRow r).jlpt ≠ (st.merged.getD i emptyRow).jlpt
          then (canonRow r).jlpt else (st.merged.getD i emptyRow).jlpt } ∧
    (mergeStep false false st r).updated = st.updated +
      (if resolveRow false false (st.merged.getD i emptyRow) (canonRow r) ≠
          st.merged.getD i emptyRow then 1 else 0) := by
  have hres : resolveRow false false (st.merged.getD i emptyRow) (canonRow r) =
      { term := if (canonRow r).term ≠ "" ∧
            (canonRow r).term ≠ (st.merged.getD i emptyRow).term
          then (canonRow r).term else (st.merged.getD i emptyRow).term
        reading := if (canonRow r).reading ≠ "" ∧
            (canonRow r).reading ≠ (st.merged.getD i emptyRow).reading
          then (canonRow r).reading else (st.merged.getD i emptyRow).reading
        meaning := if (canonRow r).meaning ≠ "" ∧
            (canonRow r).meaning ≠ (st.merged.getD i emptyRow).meaning
          then (canonRow r).meaning else (st.merged.getD i emptyRow).meaning
        ex := if (canonRow r).ex ≠ "" ∧
            (canonRow r).ex ≠ (st.merged.getD i emptyRow).ex
          then (canonRow r).ex else (st.merged.getD i emptyRow).ex
        jlpt := if (canonRow r).jlpt ≠ "" ∧
            (canonRow r).jlpt ≠ (st.merged.getD i emptyRow).jlpt
          then (canonRow r).jlpt else (st.merged.getD i emptyRow).jlpt } := rfl
  rw [mergeStep_hit false false st r i ht hidx]
  by_cases hne : resolveRow false false (st.merged.getD i emptyRow) (canonRow r) =
      st.merged.getD i emptyRow
  · rw [if_neg (by simpa using hne)]
    constructor
    · rw [← hres, hne]
    · rw [if_neg (by simpa using hne)]
      rfl
  · rw [if_pos hne]
    constructor
    · show (st.merged.set i
          (resolveRow false false (st.merged.getD i emptyRow) (canonRow r))).getD i emptyRow = _
      rw [getD_set_self _ _ _ _ hi, hres]
    · show st.updated + 1 = _
      rw [if_pos hne]

theorem merge_default_policy_witness :
    (mergeStep false false (seedState [["a", "r", "m", "", ""]]) ["a", "r", "x", "", ""]).merged.getD
        0 emptyRow =
      { term := "a", reading := "r", meaning := "x", ex := "", jlpt := "" } := by
  have h := merge_default_policy (seedState [["a", "r", "m", "", ""]]) ["a", "r", "x", "", ""] 0
    (by decide) (by decide) (by decide)
  rw [h.1]
  decide

/-- C10: an incoming row whose normalised term is empty is skipped
entirely — the state is untouched — and consequently merging a collection
of empty-term incoming rows returns exactly the canonicalised existing
rows with zero added, zero updated, and no added keys. -/
theorem merge_skips_empty_terms :
    (∀ (fb pi : Bool) (st : MergeState) (r : List String),
      (canonRow r).term = "" → mergeStep fb pi st r = st) ∧
    (∀ (existing incoming : List (List String)) (fb pi : Bool),
      (∀ r ∈ incoming, (canonRow r).term = "") →
      mergeRows existing incoming fb pi =
        { merged := existing.map canonRow, added := 0, updated := 0, addedKeys := [] }) := by
  constructor
  · exact fun fb pi st r ht => mergeStep_skip fb pi st r ht
  · intro existing incoming fb pi hall
    have hfix : incoming.foldl (mergeStep fb pi) (seedState existing) = seedState existing :=
      foldl_fixed _ _ incoming fun r hr => mergeStep_skip fb pi (seedState existing) r (hall r hr)
    obtain ⟨hm, ha, hu, hk⟩ := seedState_shape existing
    show ({ merged := (incoming.foldl (mergeStep fb pi) (seedState existing)).merged
            added := (incoming.foldl (mergeStep fb pi) (seedState existing)).added
            updated := (incoming.foldl (mergeStep fb pi) (seedState existing)).updated
            addedKeys := (incoming.foldl (mergeStep fb pi) (seedState existing)).addedKeys } :
        MergeResult) = _
    rw [hfix, hm, ha, hu, hk]

theorem merge_skips_empty_terms_witness :
    mergeRows [["a", "b"]] [["", "r"], [" ", "s", "m"]] true false =
      { merged := [["a", "b"]].map canonRow, added := 0, updated := 0, addedKeys := [] } :=
  merge_skips_empty_terms.2 [["a", "b"]] [["", "r"], [" ", "s", "m"]] true false (by decide)

/-! ### Lemmas for the candidate extractor -/

theorem insertDesc_perm (x : Cand) (l : List Cand) : List.Perm (insertDesc x l) (x :: l) := by
  induction l with
  | nil => exact List.Perm.refl _
  | cons y ys ih =>
      rw [insertDesc]
      split_ifs
      · exact ((ih.cons y).trans (List.Perm.swap x y ys))
      · exact List.Perm.refl _

theorem sortDesc_perm (l : List Cand) : List.Perm (sortDesc l) l := by
  induction l with
  | nil => exact List.Perm.refl _
  | cons x xs ih =>
      show List.Perm (insertDesc x (sortDesc xs)) (x :: xs)
      exact (insertDesc_perm x (sortDesc xs)).trans (ih.cons x)

theorem mem_sortDesc {c : Cand} {l : List Cand} (h : c ∈ sortDesc l) : c ∈ l :=
  (sortDesc_perm l).mem_iff.mp h

/-- Every entry of the count table counts a word of the input. -/
theorem countOcc_fst_mem (ws : List String) (p : String × Nat) (h : p ∈ countOcc ws) :
    p.1 ∈ ws := by
  have hgen : ∀ (ws : List String) (acc : List (String × Nat)) (p : String × Nat),
      p ∈ ws.foldl countStep acc → p.1 ∈ ws ∨ ∃ q ∈ acc, q.1 = p.1 := by
    intro ws
    induction ws with
    | nil => intro acc p hp; exact Or.inr ⟨p, hp, rfl⟩
    | cons w ws ih =>
        intro acc p hp
        rw [List.foldl_cons] at hp
        rcases ih (countStep acc w) p hp with hw | ⟨q, hq, hqe⟩
        · exact Or.inl (List.mem_cons_of_mem w hw)
        · rw [countStep] at hq
          split_ifs at hq with hany
          · obtain ⟨q0, hq0, hq0e⟩ := List.mem_map.mp hq
            refine Or.inr ⟨q0, hq0, ?_⟩
            rw [← hqe, ← hq0e]
            split_ifs <;> rfl
          · rcases List.mem_append.mp hq with hq1 | hq2
            · exact Or.inr ⟨q, hq1, hqe⟩
            · have : q = (w, 1) := by simpa using hq2
              subst this
              exact Or.inl (by rw [← hqe]; exact List.mem_cons_self w ws)
  rcases hgen ws [] p h with hw | ⟨q, hq, _⟩
  · exact hw
  · simp at hq

/-- A kept single has a non-empty headword outside the stop-term set. -/
theorem singleOf_safe (t : MNode) (s : String × String × String) (h : singleOf t = some s) :
    ¬ s.1 ∈ STOP_TERMS ∧ s.1 ≠ "" := by
  simp only [singleOf] at h
  generalize hh : (if (tokOf t).pos = "動詞" ∨ (tokOf t).pos = "形容詞" then (tokOf t).lem
      else (tokOf t).surf) = head at h
  split_ifs at h with h1 h2 h3
  have hsv := Option.some.inj h
  constructor
  · rw [← hsv]
    intro hmem
    exact absurd (List.elem_iff.mpr hmem) (by simpa using h3.2)
  · rw [← hsv]
    exact h3.1

/-- Every ranked single-word candidate avoids the stop-term set and has a
non-empty headword. -/
theorem rankedSingles_safe (toks : List MNode) (minFreq : Nat) (c : Cand)
    (h : c ∈ rankedSingles toks minFreq) : ¬ c.1 ∈ STOP_TERMS ∧ c.1 ≠ "" := by
  rw [rankedSingles] at h
  have h2 := mem_sortDesc h
  obtain ⟨p, hp, hpe⟩ := List.mem_filterMap.mp h2
  have hfst : c.1 = p.1 := by
    split_ifs at hpe
    have hv := Option.some.inj hpe
    rw [← hv]
  have hword := countOcc_fst_mem _ p hp
  obtain ⟨s, hs, hse⟩ := List.mem_map.mp hword
  obtain ⟨t, _, hte⟩ := List.mem_filterMap.mp hs
  obtain ⟨hstop, hne⟩ := singleOf_safe t s hte
  rw [hfst, ← hse]
  exact ⟨hstop, hne⟩

/-- The final seen set of the word pass is the initial one extended by the
kept terms, in order. -/
theorem dedupRanked_seen (l : List Cand) :
    ∀ seen : List String,
      (dedupRanked l seen).2 = seen ++ (dedupRanked l seen).1.map (fun c => c.1) := by
  induction l with
  | nil => intro seen; simp [dedupRanked]
  | cons c cs ih =>
      intro seen
      rw [dedupRanked]
      split_ifs with hc
      · exact ih seen
      · have := ih (seen ++ [c.1])
        simp only [List.map_cons]
        rw [this, List.append_assoc]
        rfl

/-- The word pass keeps each term at most once, never a term of the seen
set, and only candidates of the input list. -/
theorem dedupRanked_spec (l : List Cand) :
    ∀ seen : List String,
      ((dedupRanked l seen).1.map (fun c => c.1)).Nodup ∧
      (∀ c ∈ (dedupRanked l seen).1, ¬ seen.contains c.1) ∧
      (∀ c ∈ (dedupRanked l seen).1, c ∈ l) := by
  induction l with
  | nil => intro seen; refine ⟨by simp [dedupRanked], by simp [dedupRanked], by simp [dedupRanked]⟩
  | cons c cs ih =>
      intro seen
      rw [dedupRanked]
      split_ifs with hc
      · obtain ⟨h1, h2, h3⟩ := ih seen
        exact ⟨h1, h2, fun x hx => List.mem_cons_of_mem c (h3 x hx)⟩
      · obtain ⟨h1, h2, h3⟩ := ih (seen ++ [c.1])
        refine ⟨?_, ?_, ?_⟩
        · simp only [List.map_cons, List.nodup_cons]
          refine ⟨?_, h1⟩
          intro hmem
          obtain ⟨x, hx, hxe⟩ := List.mem_map.mp hmem
          have := h2 x hx
          rw [hxe] at this
          exact this (by simp)
        · intro x hx
          rcases List.mem_cons.mp hx with rfl | hx2
          · simpa using hc
          · intro hcon
            exact h2 x hx2 (by
              have hm := List.elem_iff.mp hcon
              exact List.elem_iff.mpr (List.mem_append_left _ hm))
        · intro x hx
          rcases List.mem_cons.mp hx with rfl | hx2
          · exact List.mem_cons_self _ _
          · exact List.mem_cons_of_mem c (h3 x hx2)

/-- The phrase pass keeps each term at most once, never a seen, empty or
stop term. -/
theorem dedupPhrases_spec (l : List Cand) :
    ∀ seen : List String,
      ((dedupPhrases l seen).map (fun c => c.1)).Nodup ∧
      (∀ c ∈ dedupPhrases l seen,
        ¬ seen.contains c.1 ∧ ¬ c.1 ∈ STOP_TERMS ∧ c.1 ≠ "") := by
  induction l with
  | nil => intro seen; exact ⟨by simp [dedupPhrases], by simp [dedupPhrases]⟩
  | cons c cs ih =>
      intro seen
      rw [dedupPhrases]
      split_ifs with hstop hc
      · exact ih seen
      · exact ih seen
      · obtain ⟨h1, h2⟩ := ih (seen ++ [c.1])
        refine ⟨?_, ?_⟩
        · simp only [List.map_cons, List.nodup_cons]
          refine ⟨?_, h1⟩
          intro hmem
          obtain ⟨x, hx, hxe⟩ := List.mem_map.mp hmem
          have := (h2 x hx).1
          rw [hxe] at this
          exact this (by simp)
        · intro x hx
          rcases List.mem_cons.mp hx with rfl | hx2
          · push_neg at hstop
            refine ⟨hc, ?_, hstop.1⟩
            intro hmem
            exact absurd (List.elem_iff.mpr hmem) (by simpa using hstop.2)
          · obtain ⟨hs, hst, hne⟩ := h2 x hx2
            refine ⟨?_, hst, hne⟩
            intro hcon
            exact hs (List.elem_iff.mpr (List.mem_append_left _ (List.elem_iff.mp hcon)))

/-- Everything the output loop emits came from the candidate list with a
term of length at least two (or was already in the accumulator). -/
theorem finalLoop_mem (topK : Nat) :
    ∀ (rest : List Cand) (out : List (String × String)) (p : String × String),
      p ∈ finalLoop topK rest out →
      p ∈ out ∨ ∃ c ∈ rest, p = (c.1, c.2.1) ∧ 2 ≤ c.1.length := by
  intro rest
  induction rest with
  | nil => intro out p hp; exact Or.inl hp
  | cons c cs ih =>
      intro out p hp
      rw [finalLoop] at hp
      by_cases hlen : 2 ≤ c.1.length
      · simp only [if_pos hlen] at hp
        split_ifs at hp with hbreak
        · rcases List.mem_append.mp hp with h1 | h2
          · exact Or.inl h1
          · have : p = (c.1, c.2.1) := by simpa using h2
            exact Or.inr ⟨c, List.mem_cons_self _ _, this, hlen⟩
        · rcases ih (out ++ [(c.1, c.2.1)]) p hp with h1 | ⟨x, hx, he, hl⟩
          · rcases List.mem_append.mp h1 with h2 | h3
            · exact Or.inl h2
            · have : p = (c.1, c.2.1) := by simpa using h3
              exact Or.inr ⟨c, List.mem_cons_self _ _, this, hlen⟩
          · exact Or.inr ⟨x, List.mem_cons_of_mem c hx, he, hl⟩
      · simp only [if_neg hlen] at hp
        split_ifs at hp with hbreak
        · exact Or.inl hp
        · rcases ih out p hp with h1 | ⟨x, hx, he, hl⟩
          · exact Or.inl h1
          · exact Or.inr ⟨x, List.mem_cons_of_mem c hx, he, hl⟩

/-- The output loop never emits a term twice when the accumulator and the
remaining candidates jointly carry distinct terms. -/
theorem finalLoop_nodup (topK : Nat) :
    ∀ (rest : List Cand) (out : List (String × String)),
      (out.map Prod.fst ++ rest.map (fun c => c.1)).Nodup →
      ((finalLoop topK rest out).map Prod.fst).Nodup := by
  intro rest
  induction rest with
  | nil =>
      intro out h
      rw [finalLoop]
      simpa using h.of_append_left
  | cons c cs ih =>
      intro out h
      rw [finalLoop]
      by_cases hlen : 2 ≤ c.1.length
      · simp only [if_pos hlen]
        have hre : (out ++ [(c.1, c.2.1)]).map Prod.fst ++ cs.map (fun c => c.1) =
            out.map Prod.fst ++ (c.1 :: cs.map (fun c => c.1)) := by
          simp
        split_ifs with hbreak
        · have h2 : ((out ++ [(c.1, c.2.1)]).map Prod.fst).Nodup := by
            rw [List.map_append]
            have := (hre ▸ h :
              ((out ++ [(c.1, c.2.1)]).map Prod.fst ++ cs.map (fun c => c.1)).Nodup)
            exact (List.map_append Prod.fst out [(c.1, c.2.1)] ▸ this.of_append_left)
          exact h2
        · exact ih (out ++ [(c.1, c.2.1)]) (hre ▸ h)
      · simp only [if_neg hlen]
        have hsub : (out.map Prod.fst ++ cs.map (fun c => c.1)).Nodup := by
          refine List.Sublist.nodup ?_ h
          exact (List.sublist_cons_self c.1 (cs.map fun c => c.1)).append_left _
        split_ifs with hbreak
        · exact hsub.of_append_left
        · exact ih out hsub

/-- With a positive cap the output loop never exceeds the cap. -/
theorem finalLoop_len (topK : Nat) :
    ∀ (rest : List Cand) (out : List (String × String)),
      out.length < topK → (finalLoop topK rest out).length ≤ topK := by
  intro rest
  induction rest with
  | nil => intro out h; rw [finalLoop]; omega
  | cons c cs ih =>
      intro out h
      rw [finalLoop]
      by_cases hlen : 2 ≤ c.1.length
      · simp only [if_pos hlen]
        split_ifs with hbreak
        · simp; omega
        · refine ih (out ++ [(c.1, c.2.1)]) ?_
          simp at hbreak ⊢
          omega
      · simp only [if_neg hlen]
        split_ifs with hbreak
        · omega
        · exact ih out h

/-- With a zero cap the output loop stops after its first contribution. -/
theorem finalLoop_len_zero :
    ∀ (rest : List Cand) (out : List (String × String)),
      (finalLoop 0 rest out).length ≤ out.length + 1 := by
  intro rest
  induction rest with
  | nil => intro out; rw [finalLoop]; omega
  | cons c cs ih =>
      intro out
      rw [finalLoop]
      by_cases hlen : 2 ≤ c.1.length
      · simp only [if_pos hlen]
        rw [if_pos (by omega)]
        simp
      · simp only [if_neg hlen]
        rw [if_pos (by omega)]
        omega

/-- C7 (amended): every extracted pair has a term of length at least two
that avoids the stop-term set, terms are pairwise distinct across the
whole output (words and phrases share one seen set), and the output holds
at most `max top_k 1` pairs — at most `top_k` whenever `top_k ≥ 1`; with
`top_k = 0` the loop's cap test runs only after the first append, so one
pair can slip out. -/
theorem extract_candidates_props (toks : List MNode) (topK minFreq : Nat) (ap : Bool)
    (mn : Nat) :
    (∀ p ∈ extractCandidatesFromJapaneseText toks topK minFreq ap mn,
        2 ≤ p.1.length ∧ p.1 ∉ STOP_TERMS) ∧
    ((extractCandidatesFromJapaneseText toks topK minFreq ap mn).map Prod.fst).Nodup ∧
    (extractCandidatesFromJapaneseText toks topK minFreq ap mn).length ≤ max topK 1 := by
  by_cases hemp : toks.isEmpty
  · have he : extractCandidatesFromJapaneseText toks topK minFreq ap mn = [] := by
      simp [extractCandidatesFromJapaneseText, hemp]
    rw [he]
    refine ⟨by simp, by simp, by simp⟩
  · have he : extractCandidatesFromJapaneseText toks topK minFreq ap mn =
        finalLoop topK (sortDesc ((dedupRanked (rankedSingles toks minFreq) []).1 ++
          dedupPhrases (if ap then phraseCands toks mn else [])
            (dedupRanked (rankedSingles toks minFreq) []).2)) [] := by
      simp [extractCandidatesFromJapaneseText, hemp]
    obtain ⟨hd1, _, hd3⟩ := dedupRanked_spec (rankedSingles toks minFreq) []
    have hseen : (dedupRanked (rankedSingles toks minFreq) []).2 =
        (dedupRanked (rankedSingles toks minFreq) []).1.map (fun c => c.1) := by
      have hx := dedupRanked_seen (rankedSingles toks minFreq) []
      simpa using hx
    obtain ⟨hp1, hp2⟩ := dedupPhrases_spec (if ap then phraseCands toks mn else [])
      (dedupRanked (rankedSingles toks minFreq) []).2
    have hcomb0 : (((dedupRanked (rankedSingles toks minFreq) []).1 ++
        dedupPhrases (if ap then phraseCands toks mn else [])
          (dedupRanked (rankedSingles toks minFreq) []).2).map (fun c => c.1)).Nodup := by
      rw [List.map_append]
      refine List.Nodup.append hd1 hp1 ?_
      intro t ht1 ht2
      obtain ⟨c, hc, hce⟩ := List.mem_map.mp ht2
      have := (hp2 c hc).1
      rw [hce] at this
      exact this (by rw [hseen]; exact List.elem_iff.mpr ht1)
    have hcombmem : ∀ c ∈ sortDesc ((dedupRanked (rankedSingles toks minFreq) []).1 ++
        dedupPhrases (if ap then phraseCands toks mn else [])
          (dedupRanked (rankedSingles toks minFreq) []).2), ¬ c.1 ∈ STOP_TERMS := by
      intro c hc
      rcases List.mem_append.mp (mem_sortDesc hc) with h1 | h2
      · exact (rankedSingles_safe toks minFreq c (hd3 c h1)).1
      · exact (hp2 c h2).2.1
    have hcombnodup : ((sortDesc ((dedupRanked (rankedSingles toks minFreq) []).1 ++
        dedupPhrases (if ap then phraseCands toks mn else [])
          (dedupRanked (rankedSingles toks minFreq) []).2)).map (fun c => c.1)).Nodup := by
      refine (List.Perm.nodup_iff ?_).mpr hcomb0
      exact (sortDesc_perm _).map _
    rw [he]
    refine ⟨?_, ?_, ?_⟩
    · intro p hp
      rcases finalLoop_mem topK _ [] p hp with h1 | ⟨c, hc, hpe, hlen⟩
      · simp at h1
      · constructor
        · rw [hpe]; exact hlen
        · rw [hpe]; exact hcombmem c hc
    · exact finalLoop_nodup topK _ [] (by simpa using hcombnodup)
    · cases topK with
      | zero =>
          have := finalLoop_len_zero (sortDesc ((dedupRanked (rankedSingles toks minFreq) []).1 ++
            dedupPhrases (if ap then phraseCands toks mn else [])
              (dedupRanked (rankedSingles toks minFreq) []).2)) []
          simpa using this
      | succ k =>
          have := finalLoop_len (k + 1) (sortDesc ((dedupRanked (rankedSingles toks minFreq)
            []).1 ++ dedupPhrases (if ap then phraseCands toks mn else [])
              (dedupRanked (rankedSingles toks minFreq) []).2)) [] (by simp)
          omega

/-- C7 (counterexample): with `top_k = 0` a single noun token already
yields one output pair — the cap test runs only after the append, so the
output exceeds `top_k`. -/
theorem extract_candidates_cex :
    ¬ (extractCandidatesFromJapaneseText
        [{ surface := "日本", rawLemma := "", rawPos1 := "名詞-普通名詞", rawPos := "",
           rawReading := "ニホン", rawOrth := "" }] 0 1 true 3).length ≤ 0 := by
  decide

theorem extract_candidates_props_witness :
    (2 ≤ ("日本" : String).length ∧ ("日本" : String) ∉ STOP_TERMS) ∧
    ((extractCandidatesFromJapaneseText
        [{ surface := "日本", rawLemma := "", rawPos1 := "名詞-普通名詞", rawPos := "",
           rawReading := "ニホン", rawOrth := "" }] 5 1 true 3).map Prod.fst).Nodup := by
  have h := extract_candidates_props
    [{ surface := "日本", rawLemma := "", rawPos1 := "名詞-普通名詞", rawPos := "",
       rawReading := "ニホン", rawOrth := "" }] 5 1 true 3
  exact ⟨h.1 ("日本", "にほん") (by decide), h.2.1⟩

/-- `List.filter` over a cons, with the Boolean score test turned into a
propositional `if`. -/
theorem filter_cons_score (z : Cand) (rest : List Cand) (s : Nat) :
    (z :: rest).filter (fun c => c.2.2 == s) =
      if z.2.2 = s then z :: rest.filter (fun c => c.2.2 == s)
      else rest.filter (fun c => c.2.2 == s) := by
  by_cases h : z.2.2 = s
  · simp [List.filter_cons, h]
  · simp [List.filter_cons, h]

/-- Python's stable descending sort keeps equal-score candidates in their
first-seen order: inserting an element commutes with filtering a score
class, the inserted element going first in its own class. -/
theorem filter_insertDesc (x : Cand) (l : List Cand) (s : Nat) :
    (insertDesc x l).filter (fun c => c.2.2 == s) =
      if x.2.2 = s then x :: l.filter (fun c => c.2.2 == s)
      else l.filter (fun c => c.2.2 == s) := by
  induction l with
  | nil =>
      by_cases hx : x.2.2 = s
      · rw [insertDesc, filter_cons_score, if_pos hx]
      · rw [insertDesc, filter_cons_score, if_neg hx]
  | cons y ys ih =>
      rw [insertDesc]
      by_cases hlt : x.2.2 < y.2.2
      · rw [if_pos hlt, filter_cons_score, filter_cons_score]
        by_cases hx : x.2.2 = s
        · have hy : ¬ y.2.2 = s := by omega
          rw [if_neg hy, if_neg hy, ih, if_pos hx]
        · rw [ih, if_neg hx, if_neg hx]
      · rw [if_neg hlt, filter_cons_score]

theorem sortDesc_stable (l : List Cand) (s : Nat) :
    (sortDesc l).filter (fun c => c.2.2 == s) = l.filter (fun c => c.2.2 == s) := by
  induction l with
  | nil => rfl
  | cons x xs ih =>
      show (insertDesc x (sortDesc xs)).filter (fun c => c.2.2 == s) = _
      rw [filter_insertDesc, filter_cons_score]
      by_cases hx : x.2.2 = s
      · rw [if_pos hx, if_pos hx, ih]
      · rw [if_neg hx, if_neg hx, ih]

/-- C9: extraction is a pure function of the token sequence and the
options — two runs on the same input are identical — and the descending
sort used for ranking is stable, so equal-score candidates keep their
first-seen order (each score class of the sorted list is the score class
of the input, unchanged). -/
theorem extract_candidates_deterministic :
    (∀ (toks : List MNode) (topK minFreq : Nat) (ap : Bool) (mn : Nat),
      extractCandidatesFromJapaneseText toks topK minFreq ap mn =
        extractCandidatesFromJapaneseText toks topK minFreq ap mn) ∧
    (∀ (l : List Cand) (s : Nat),
      (sortDesc l).filter (fun c => c.2.2 == s) = l.filter (fun c => c.2.2 == s)) :=
  ⟨fun _ _ _ _ _ => rfl, sortDesc_stable⟩

/-! ### Lemmas for the JSON parser: appending characters after a
successfully parsed prefix does not disturb the parse -/

theorem dropWhile_append_ne {p : Char → Bool} (l1 l2 : List Char) (h : l1.dropWhile p ≠ []) :
    (l1 ++ l2).dropWhile p = l1.dropWhile p ++ l2 := by
  rw [List.dropWhile_append]
  simp [List.isEmpty_iff, h]

theorem dropWhile_append_nil {p : Char → Bool} (l1 l2 : List Char) (h : l1.dropWhile p = []) :
    (l1 ++ l2).dropWhile p = l2.dropWhile p := by
  rw [List.dropWhile_append]
  simp [List.isEmpty_iff, h]

theorem takeWhile_append_ne {p : Char → Bool} (l1 l2 : List Char) (h : l1.dropWhile p ≠ []) :
    (l1 ++ l2).takeWhile p = l1.takeWhile p := by
  rw [List.takeWhile_append, if_neg]
  intro hlen
  apply h
  have hcat : (l1.takeWhile p).length + (l1.dropWhile p).length = l1.length := by
    conv_rhs => rw [← List.takeWhile_append_dropWhile p l1]
    rw [List.length_append]
  have : (l1.dropWhile p).length = 0 := by omega
  exact List.eq_nil_of_length_eq_zero this

theorem dropWhile_head_false {p : Char → Bool} :
    ∀ (l : List Char) (c : Char) (t : List Char), l.dropWhile p = c :: t → p c = false := by
  intro l
  induction l with
  | nil => intro c t h; simp at h
  | cons a l ih =>
      intro c t h
      rw [List.dropWhile_cons] at h
      split_ifs at h with ha
      · exact ih c t h
      · cases h
        simpa using ha

theorem skipWs_append_ne (cs e : List Char) (h : skipWs cs ≠ []) :
    skipWs (cs ++ e) = skipWs cs ++ e :=
  dropWhile_append_ne cs e h

theorem skipWs_append_nil (cs e : List Char) (h : skipWs cs = []) :
    skipWs (cs ++ e) = skipWs e :=
  dropWhile_append_nil cs e h

theorem skipWs_of_head_false (c : Char) (t : List Char)
    (h : (fun c => c = ' ' || c = '\t' || c = '\n' || c = '\r') c = false) :
    skipWs (c :: t) = c :: t := by
  rw [skipWs, List.dropWhile_cons, if_neg (by simp [h])]

/-- `skipWs` output is stable under appending: its head is never
whitespace. -/
theorem skipWs_fix_append (cs e : List Char) (h : skipWs cs ≠ []) :
    skipWs (skipWs cs ++ e) = skipWs cs ++ e := by
  obtain ⟨c, t, hct⟩ := List.exists_cons_of_ne_nil h
  rw [hct]
  have hc := dropWhile_head_false cs c t hct
  exact skipWs_of_head_false c (t ++ e) hc


theorem cons_eq_cons_head {a b : Char} {l t : List Char} (h : a :: l = b :: t) : a = b := by
  have := congrArg List.head? h
  simpa using this

theorem cons_eq_cons_tail {a b : Char} {l t : List Char} (h : a :: l = b :: t) : l = t := by
  have := congrArg List.tail h
  simpa using this

theorem expSpan_append (r1 extra : List Char) (b : Char) (tail : List Char)
    (h : (expSpan r1).2 = b :: tail) (hb : numSafeBreak b) :
    expSpan (r1 ++ extra) = ((expSpan r1).1, (b :: tail) ++ extra) := by
  obtain ⟨hdig, hdot, hche, hchE⟩ := hb
  cases r1 with
  | nil => simp [expSpan] at h
  | cons e0 r2 =>
      by_cases hee : e0 = 'e' ∨ e0 = 'E'
      · have hne0 : ¬ (e0 = b) := by
          rcases hee with rfl | rfl
          · exact fun hc => hche hc.symm
          · exact fun hc => hchE hc.symm
        cases r2 with
        | nil =>
            exfalso
            have hx : expSpan [e0] = ([], [e0]) := by
              simp [expSpan, hee]
            rw [hx] at h
            exact hne0 (cons_eq_cons_head h)
        | cons s r3 =>
            by_cases hsgn : s = '+' ∨ s = '-'
            · by_cases hed : r3.takeWhile Char.isDigit = []
              · exfalso
                have hx : expSpan (e0 :: s :: r3) = ([], e0 :: s :: r3) := by
                  simp [expSpan, hee, hsgn, List.isEmpty_iff, hed]
                rw [hx] at h
                exact hne0 (cons_eq_cons_head h)
              · have hx1 : expSpan (e0 :: s :: r3) =
                    (e0 :: ([s] ++ r3.takeWhile Char.isDigit), r3.dropWhile Char.isDigit) := by
                  simp [expSpan, hee, hsgn, List.isEmpty_iff, hed]
                have hdw : r3.dropWhile Char.isDigit = b :: tail := by
                  rw [hx1] at h
                  exact h
                have hdwne : r3.dropWhile Char.isDigit ≠ [] := by rw [hdw]; simp
                have htke : (r3 ++ extra).takeWhile Char.isDigit = r3.takeWhile Char.isDigit :=
                  takeWhile_append_ne r3 extra hdwne
                have hdpe : (r3 ++ extra).dropWhile Char.isDigit =
                    r3.dropWhile Char.isDigit ++ extra :=
                  dropWhile_append_ne r3 extra hdwne
                have hx2 : expSpan ((e0 :: s :: r3) ++ extra) =
                    (e0 :: ([s] ++ r3.takeWhile Char.isDigit),
                      r3.dropWhile Char.isDigit ++ extra) := by
                  simp only [List.cons_append]
                  simp [expSpan, hee, hsgn, List.isEmpty_iff, htke, hdpe, hed]
                rw [hx2, hx1, hdw]
            · by_cases hed : (s :: r3).takeWhile Char.isDigit = []
              · exfalso
                have hx : expSpan (e0 :: s :: r3) = ([], e0 :: s :: r3) := by
                  simp [expSpan, hee, hsgn, List.isEmpty_iff, hed]
                rw [hx] at h
                exact hne0 (cons_eq_cons_head h)
              · have hx1 : expSpan (e0 :: s :: r3) =
                    (e0 :: ([] ++ (s :: r3).takeWhile Char.isDigit),
                      (s :: r3).dropWhile Char.isDigit) := by
                  simp [expSpan, hee, hsgn, List.isEmpty_iff, hed]
                have hdw : (s :: r3).dropWhile Char.isDigit = b :: tail := by
                  rw [hx1] at h
                  exact h
                have hdwne : (s :: r3).dropWhile Char.isDigit ≠ [] := by rw [hdw]; simp
                have htke : ((s :: r3) ++ extra).takeWhile Char.isDigit =
                    (s :: r3).takeWhile Char.isDigit :=
                  takeWhile_append_ne (s :: r3) extra hdwne
                have hdpe : ((s :: r3) ++ extra).dropWhile Char.isDigit =
                    (s :: r3).dropWhile Char.isDigit ++ extra :=
                  dropWhile_append_ne (s :: r3) extra hdwne
                have hsd : s.isDigit = true := by
                  by_contra hc
                  have hcf : s.isDigit = false := by
                    cases hv : s.isDigit
                    · rfl
                    · exact absurd hv hc
                  exact hed (by simp [List.takeWhile_cons, hcf])
                have hdwne3 : r3.dropWhile Char.isDigit ≠ [] := by
                  have hcv : (s :: r3).dropWhile Char.isDigit = r3.dropWhile Char.isDigit := by
                    simp [List.dropWhile_cons, hsd]
                  rw [hcv] at hdwne
                  exact hdwne
                have htke3 := takeWhile_append_ne r3 extra hdwne3
                have hdpe3 := dropWhile_append_ne r3 extra hdwne3
                have hx2 : expSpan ((e0 :: s :: r3) ++ extra) =
                    (e0 :: ([] ++ (s :: r3).takeWhile Char.isDigit),
                      (s :: r3).dropWhile Char.isDigit ++ extra) := by
                  simp only [List.cons_append]
                  simp [expSpan, hee, hsgn, List.isEmpty_iff, hed, hsd]
                  exact ⟨htke3, hdpe3⟩
                rw [hx2, hx1, hdw]
      · have hx1 : expSpan (e0 :: r2) = ([], e0 :: r2) := by simp [expSpan, hee]
        have hx2 : expSpan ((e0 :: r2) ++ extra) = ([], e0 :: r2 ++ extra) := by
          simp [expSpan, hee]
        rw [hx1] at h
        obtain rfl := cons_eq_cons_head h
        obtain rfl := cons_eq_cons_tail h
        rw [hx2, hx1]


theorem fracSpan_append (r0 extra : List Char) (b : Char) (tail : List Char)
    (hb : numSafeBreak b)
    (hrest : (expSpan (fracSpan r0).2).2 = b :: tail) :
    fracSpan (r0 ++ extra) = ((fracSpan r0).1, (fracSpan r0).2 ++ extra) := by
  obtain ⟨hdig, hdot, hche, hchE⟩ := hb
  cases r0 with
  | nil =>
      exfalso
      have hx : fracSpan [] = ([], []) := rfl
      rw [hx] at hrest
      simp [expSpan] at hrest
  | cons c0 r2 =>
      by_cases hdc : c0 = '.'
      · by_cases hfd : r2.takeWhile Char.isDigit = []
        · exfalso
          have hx : fracSpan (c0 :: r2) = ([], c0 :: r2) := by
            simp [fracSpan, hdc, List.isEmpty_iff, hfd]
          rw [hx] at hrest
          have hx2 : expSpan (c0 :: r2) = ([], c0 :: r2) := by
            have hnc : ¬ (c0 = 'e' ∨ c0 = 'E') := by rw [hdc]; decide
            simp [expSpan, hnc]
          rw [hx2] at hrest
          have hcb : c0 = b := cons_eq_cons_head hrest
          rw [hdc] at hcb
          exact hdot hcb.symm
        · have hx1 : fracSpan (c0 :: r2) =
              ('.' :: r2.takeWhile Char.isDigit, r2.dropWhile Char.isDigit) := by
            simp [fracSpan, hdc, List.isEmpty_iff, hfd]
          have hdwne : r2.dropWhile Char.isDigit ≠ [] := by
            intro hc
            rw [hx1] at hrest
            simp only [hc] at hrest
            simp [expSpan] at hrest
          have htke := takeWhile_append_ne r2 extra hdwne
          have hdpe := dropWhile_append_ne r2 extra hdwne
          have hx2 : fracSpan ((c0 :: r2) ++ extra) =
              ('.' :: r2.takeWhile Char.isDigit, r2.dropWhile Char.isDigit ++ extra) := by
            simp only [List.cons_append]
            simp [fracSpan, hdc, List.isEmpty_iff, hfd, htke, hdpe]
          rw [hx2, hx1]
      · have hx1 : fracSpan (c0 :: r2) = ([], c0 :: r2) := by
          simp [fracSpan, hdc]
        have hx2 : fracSpan ((c0 :: r2) ++ extra) = ([], c0 :: r2 ++ extra) := by
          simp [fracSpan, hdc]
        rw [hx2, hx1]

theorem parseNumber_append (cs extra : List Char) (nstr : String) (b : Char) (tail : List Char)
    (h : parseNumber cs = some (nstr, b :: tail)) (hb : numSafeBreak b) :
    parseNumber (cs ++ extra) = some (nstr, (b :: tail) ++ extra) := by
  cases cs with
  | nil => simp [parseNumber] at h
  | cons c0 cs2 =>
      by_cases hm : c0 = '-'
      · cases cs2 with
        | nil =>
            exfalso
            have hx : parseNumber [c0] = none := by simp [parseNumber, hm]
            rw [hx] at h
            exact Option.noConfusion h
        | cons c1 r =>
            by_cases hz : c1 = '0'
            · have hx1 : parseNumber (c0 :: c1 :: r) =
                  some (⟨['-'] ++ [c1] ++ (fracSpan r).1 ++ (expSpan (fracSpan r).2).1⟩,
                    (expSpan (fracSpan r).2).2) := by
                simp [parseNumber, hm, hz]
              have hrest : (expSpan (fracSpan r).2).2 = b :: tail := by
                rw [hx1] at h
                exact congrArg Prod.snd (Option.some.inj h)
              have hfa := fracSpan_append r extra b tail hb hrest
              have hea := expSpan_append (fracSpan r).2 extra b tail hrest hb
              have hx2 : parseNumber ((c0 :: c1 :: r) ++ extra) =
                  some (⟨['-'] ++ [c1] ++ (fracSpan r).1 ++ (expSpan (fracSpan r).2).1⟩,
                    (b :: tail) ++ extra) := by
                simp only [List.cons_append]
                simp [parseNumber, hm, hz, hfa, hea]
              rw [hx2]
              rw [hx1] at h
              have hn : (⟨['-'] ++ [c1] ++ (fracSpan r).1 ++ (expSpan (fracSpan r).2).1⟩ :
                  String) = nstr := congrArg Prod.fst (Option.some.inj h)
              rw [hn]
            · by_cases hd : c1.isDigit
              · have hx1 : parseNumber (c0 :: c1 :: r) =
                    some (⟨['-'] ++ (c1 :: r.takeWhile Char.isDigit) ++
                        (fracSpan (r.dropWhile Char.isDigit)).1 ++
                        (expSpan (fracSpan (r.dropWhile Char.isDigit)).2).1⟩,
                      (expSpan (fracSpan (r.dropWhile Char.isDigit)).2).2) := by
                  simp [parseNumber, hm, hz, hd]
                have hrest : (expSpan (fracSpan (r.dropWhile Char.isDigit)).2).2 = b :: tail := by
                  rw [hx1] at h
                  exact congrArg Prod.snd (Option.some.inj h)
                have hdwne : r.dropWhile Char.isDigit ≠ [] := by
                  intro hc
                  rw [hc] at hrest
                  simp [fracSpan, expSpan] at hrest
                have htke := takeWhile_append_ne r extra hdwne
                have hdpe := dropWhile_append_ne r extra hdwne
                have hfa := fracSpan_append (r.dropWhile Char.isDigit) extra b tail hb hrest
                have hea := expSpan_append (fracSpan (r.dropWhile Char.isDigit)).2 extra b tail
                  hrest hb
                have hx2 : parseNumber ((c0 :: c1 :: r) ++ extra) =
                    some (⟨['-'] ++ (c1 :: r.takeWhile Char.isDigit) ++
                        (fracSpan (r.dropWhile Char.isDigit)).1 ++
                        (expSpan (fracSpan (r.dropWhile Char.isDigit)).2).1⟩,
                      (b :: tail) ++ extra) := by
                  simp only [List.cons_append]
                  simp [parseNumber, hm, hz, hd, htke, hdpe, hfa, hea]
                rw [hx2]
                rw [hx1] at h
                have hn : (⟨['-'] ++ (c1 :: r.takeWhile Char.isDigit) ++
                    (fracSpan (r.dropWhile Char.isDigit)).1 ++
                    (expSpan (fracSpan (r.dropWhile Char.isDigit)).2).1⟩ : String) = nstr :=
                  congrArg Prod.fst (Option.some.inj h)
                rw [hn]
              · exfalso
                have hx : parseNumber (c0 :: c1 :: r) = none := by
                  simp [parseNumber, hm, hz, hd]
                rw [hx] at h
                exact Option.noConfusion h
      · by_cases hz : c0 = '0'
        · have hx1 : parseNumber (c0 :: cs2) =
              some (⟨[] ++ [c0] ++ (fracSpan cs2).1 ++ (expSpan (fracSpan cs2).2).1⟩,
                (expSpan (fracSpan cs2).2).2) := by
            simp [parseNumber, hm, hz]
          have hrest : (expSpan (fracSpan cs2).2).2 = b :: tail := by
            rw [hx1] at h
            exact congrArg Prod.snd (Option.some.inj h)
          have hfa := fracSpan_append cs2 extra b tail hb hrest
          have hea := expSpan_append (fracSpan cs2).2 extra b tail hrest hb
          have hx2 : parseNumber ((c0 :: cs2) ++ extra) =
              some (⟨[] ++ [c0] ++ (fracSpan cs2).1 ++ (expSpan (fracSpan cs2).2).1⟩,
                (b :: tail) ++ extra) := by
            simp only [List.cons_append]
            simp [parseNumber, hm, hz, hfa, hea]
          rw [hx2]
          rw [hx1] at h
          have hn : (⟨[] ++ [c0] ++ (fracSpan cs2).1 ++ (expSpan (fracSpan cs2).2).1⟩ :
              String) = nstr := congrArg Prod.fst (Option.some.inj h)
          rw [hn]
        · by_cases hd : c0.isDigit
          · have hx1 : parseNumber (c0 :: cs2) =
                some (⟨[] ++ (c0 :: cs2.takeWhile Char.isDigit) ++
                    (fracSpan (cs2.dropWhile Char.isDigit)).1 ++
                    (expSpan (fracSpan (cs2.dropWhile Char.isDigit)).2).1⟩,
                  (expSpan (fracSpan (cs2.dropWhile Char.isDigit)).2).2) := by
              simp [parseNumber, hm, hz, hd]
            have hrest : (expSpan (fracSpan (cs2.dropWhile Char.isDigit)).2).2 = b :: tail := by
              rw [hx1] at h
              exact congrArg Prod.snd (Option.some.inj h)
            have hdwne : cs2.dropWhile Char.isDigit ≠ [] := by
              intro hc
              rw [hc] at hrest
              simp [fracSpan, expSpan] at hrest
            have htke := takeWhile_append_ne cs2 extra hdwne
            have hdpe := dropWhile_append_ne cs2 extra hdwne
            have hfa := fracSpan_append (cs2.dropWhile Char.isDigit) extra b tail hb hrest
            have hea := expSpan_append (fracSpan (cs2.dropWhile Char.isDigit)).2 extra b tail
              hrest hb
            have hx2 : parseNumber ((c0 :: cs2) ++ extra) =
                some (⟨[] ++ (c0 :: cs2.takeWhile Char.isDigit) ++
                    (fracSpan (cs2.dropWhile Char.isDigit)).1 ++
                    (expSpan (fracSpan (cs2.dropWhile Char.isDigit)).2).1⟩,
                  (b :: tail) ++ extra) := by
              simp only [List.cons_append]
              simp [parseNumber, hm, hz, hd, htke, hdpe, hfa, hea]
            rw [hx2]
            rw [hx1] at h
            have hn : (⟨[] ++ (c0 :: cs2.takeWhile Char.isDigit) ++
                (fracSpan (cs2.dropWhile Char.isDigit)).1 ++
                (expSpan (fracSpan (cs2.dropWhile Char.isDigit)).2).1⟩ : String) = nstr :=
              congrArg Prod.fst (Option.some.inj h)
            rw [hn]
          · exfalso
            have hx : parseNumber (c0 :: cs2) = none := by
              simp [parseNumber, hm, hz, hd]
            rw [hx] at h
            exact Option.noConfusion h


theorem parseStringBody_append :
    ∀ (cs : List Char) (sv : String) (rest extra : List Char),
      parseStringBody cs = some (sv, rest) →
      parseStringBody (cs ++ extra) = some (sv, rest ++ extra) := by
  intro cs
  induction cs using parseStringBody.induct with
  | case1 =>
      intro sv rest extra h
      simp [parseStringBody] at h
  | case2 cs2 =>
      intro sv rest extra h
      have hx : parseStringBody ('"' :: cs2) = some ("", cs2) := by
        rw [parseStringBody.eq_def]
        simp
      rw [hx] at h
      have hs : ("" : String) = sv := congrArg Prod.fst (Option.some.inj h)
      have hr : cs2 = rest := congrArg Prod.snd (Option.some.inj h)
      subst hs; subst hr
      rw [List.cons_append, parseStringBody.eq_def]
      simp
  | case3 hne =>
      intro sv rest extra h
      rw [parseStringBody.eq_def] at h
      simp at h
  | case4 h1 h2 h3 h4 rest3 i hhex hne ih =>
      intro sv rest extra h
      have hx1 : parseStringBody ('\\' :: 'u' :: h1 :: h2 :: h3 :: h4 :: rest3) =
          (parseStringBody rest3).map fun p => (⟨Char.ofNat i :: p.1.toList⟩, p.2) := by
        rw [parseStringBody.eq_def]
        simp [hhex]
      rw [hx1] at h
      obtain ⟨⟨s0, r0⟩, hp, hf⟩ := Option.map_eq_some'.mp h
      have hs : (⟨Char.ofNat i :: s0.toList⟩ : String) = sv := congrArg Prod.fst hf
      have hr : r0 = rest := congrArg Prod.snd hf
      subst hs; subst hr
      have hx2 : parseStringBody (('\\' :: 'u' :: h1 :: h2 :: h3 :: h4 :: rest3) ++ extra) =
          (parseStringBody (rest3 ++ extra)).map
            fun p => (⟨Char.ofNat i :: p.1.toList⟩, p.2) := by
        simp only [List.cons_append]
        rw [parseStringBody.eq_def]
        simp [hhex]
      rw [hx2, ih s0 r0 extra hp]
      rfl
  | case5 h1 h2 h3 h4 rest3 hhex hne =>
      intro sv rest extra h
      rw [parseStringBody.eq_def] at h
      simp [hhex] at h
  | case6 cs2 hshape hne =>
      intro sv rest extra h
      exfalso
      rcases cs2 with _ | ⟨a1, _ | ⟨a2, _ | ⟨a3, _ | ⟨a4, t⟩⟩⟩⟩
      · rw [parseStringBody.eq_def] at h; simp at h
      · rw [parseStringBody.eq_def] at h; simp at h
      · rw [parseStringBody.eq_def] at h; simp at h
      · rw [parseStringBody.eq_def] at h; simp at h
      · exact hshape a1 a2 a3 a4 t rfl
  | case7 e cs2 hneu ec hesc hne ih =>
      intro sv rest extra h
      have hx1 : parseStringBody ('\\' :: e :: cs2) =
          (parseStringBody cs2).map fun p => (⟨ec :: p.1.toList⟩, p.2) := by
        rw [parseStringBody.eq_def]
        simp [hneu, hesc]
      rw [hx1] at h
      obtain ⟨⟨s0, r0⟩, hp, hf⟩ := Option.map_eq_some'.mp h
      have hs : (⟨ec :: s0.toList⟩ : String) = sv := congrArg Prod.fst hf
      have hr : r0 = rest := congrArg Prod.snd hf
      subst hs; subst hr
      have hx2 : parseStringBody (('\\' :: e :: cs2) ++ extra) =
          (parseStringBody (cs2 ++ extra)).map fun p => (⟨ec :: p.1.toList⟩, p.2) := by
        simp only [List.cons_append]
        rw [parseStringBody.eq_def]
        simp [hneu, hesc]
      rw [hx2, ih s0 r0 extra hp]
      rfl
  | case8 e cs2 hneu hesc hne =>
      intro sv rest extra h
      rw [parseStringBody.eq_def] at h
      simp [hneu, hesc] at h
  | case9 c cs2 hq hb ih =>
      intro sv rest extra h
      have hx1 : parseStringBody (c :: cs2) =
          (parseStringBody cs2).map fun p => (⟨c :: p.1.toList⟩, p.2) := by
        rw [parseStringBody.eq_def]
        simp [hq, hb]
      rw [hx1] at h
      obtain ⟨⟨s0, r0⟩, hp, hf⟩ := Option.map_eq_some'.mp h
      have hs : (⟨c :: s0.toList⟩ : String) = sv := congrArg Prod.fst hf
      have hr : r0 = rest := congrArg Prod.snd hf
      subst hs; subst hr
      have hx2 : parseStringBody ((c :: cs2) ++ extra) =
          (parseStringBody (cs2 ++ extra)).map fun p => (⟨c :: p.1.toList⟩, p.2) := by
        simp only [List.cons_append]
        rw [parseStringBody.eq_def]
        simp [hq, hb]
      rw [hx2, ih s0 r0 extra hp]
      rfl


theorem parseValue_nil (fuel : Nat) : parseValue fuel [] = none := by
  cases fuel with
  | zero => rfl
  | succ n => rw [parseValue.eq_def]

theorem parseElems_nil (fuel : Nat) (acc : List JVal) : parseElems fuel [] acc = none := by
  cases fuel with
  | zero => rfl
  | succ n => rw [parseElems.eq_def]; simp [parseValue_nil]

theorem parseMembers_nil (fuel : Nat) (acc : List (String × JVal)) :
    parseMembers fuel [] acc = none := by
  cases fuel with
  | zero => rfl
  | succ n => rw [parseMembers.eq_def]

theorem head?_append_ne_nil {l : List Char} (e : List Char) (h : l ≠ []) :
    (l ++ e).head? = l.head? := by
  cases l with
  | nil => exact absurd rfl h
  | cons a t => rfl

theorem tail_append_ne_nil {l : List Char} (e : List Char) (h : l ≠ []) :
    (l ++ e).tail = l.tail ++ e := by
  cases l with
  | nil => exact absurd rfl h
  | cons a t => rfl

theorem numSafeBreak_ws (b : Char)
    (hb : (b = ' ' || b = '\t' || b = '\n' || b = '\r') = true) : numSafeBreak b := by
  have hb2 : ((b = ' ' ∨ b = '\t') ∨ b = '\n') ∨ b = '\r' := by simpa using hb
  rcases hb2 with ((rfl | rfl) | rfl) | rfl <;>
    exact ⟨by decide, by decide, by decide, by decide⟩

theorem safe_of_skipWs_head (rest0 : List Char) (d : Char)
    (hd : (skipWs rest0).head? = some d) (hds : numSafeBreak d) :
    ∃ b t, rest0 = b :: t ∧ numSafeBreak b := by
  cases rest0 with
  | nil => simp [skipWs] at hd
  | cons b t =>
      by_cases hw : (b = ' ' || b = '\t' || b = '\n' || b = '\r') = true
      · exact ⟨b, t, rfl, numSafeBreak_ws b hw⟩
      · have hfix : skipWs (b :: t) = b :: t :=
          skipWs_of_head_false b t (by simpa using hw)
        rw [hfix] at hd
        have hbd : b = d := by simpa using hd
        exact ⟨b, t, rfl, hbd ▸ hds⟩

theorem safeRest_of_head (v : JVal) (rest0 : List Char) (d : Char)
    (hd : (skipWs rest0).head? = some d) (hds : numSafeBreak d) : SafeRest v rest0 := by
  cases v with
  | num lit => exact safe_of_skipWs_head rest0 d hd hds
  | null => trivial
  | bool b => trivial
  | str s => trivial
  | arr xs => trivial
  | obj ms => trivial

theorem skipWs_ne_nil_of_head {rest0 : List Char} {d : Char}
    (hd : (skipWs rest0).head? = some d) : skipWs rest0 ≠ [] := by
  intro hc; rw [hc] at hd; exact Option.noConfusion hd

/-- `skipWs` commutes with appending when the continuation is nonempty: the
head seen before the append is still the head after it. -/
theorem skipWs_head_append {rest0 : List Char} {d : Char} (extra : List Char)
    (hd : (skipWs rest0).head? = some d) :
    skipWs (rest0 ++ extra) = skipWs rest0 ++ extra ∧
    (skipWs (rest0 ++ extra)).head? = some d ∧
    (skipWs (rest0 ++ extra)).tail = (skipWs rest0).tail ++ extra := by
  have hne := skipWs_ne_nil_of_head hd
  have h1 := skipWs_append_ne rest0 extra hne
  refine ⟨h1, ?_, ?_⟩
  · rw [h1, head?_append_ne_nil extra hne, hd]
  · rw [h1, tail_append_ne_nil extra hne]


/-- Fuel monotonicity for the mutual JSON parser. -/
theorem parse_mono : ∀ fuel : Nat,
    (∀ cs r, parseValue fuel cs = some r → parseValue (fuel + 1) cs = some r) ∧
    (∀ cs acc r, parseElems fuel cs acc = some r → parseElems (fuel + 1) cs acc = some r) ∧
    (∀ cs acc r, parseMembers fuel cs acc = some r → parseMembers (fuel + 1) cs acc = some r) := by
  intro fuel
  induction fuel with
  | zero =>
      refine ⟨?_, ?_, ?_⟩
      · intro cs r h; simp [parseValue] at h
      · intro cs acc r h; simp [parseElems] at h
      · intro cs acc r h; simp [parseMembers] at h
  | succ n ih =>
      obtain ⟨ihv, ihe, ihm⟩ := ih
      refine ⟨?_, ?_, ?_⟩
      · -- parseValue
        intro cs r h
        cases cs with
        | nil => rw [parseValue.eq_def] at h; simp at h
        | cons c rest0 =>
            rw [parseValue.eq_def] at h
            rw [parseValue.eq_def]
            simp only [Nat.add_eq, Nat.add_zero] at h ⊢
            split_ifs at h ⊢ <;>
              first
                | exact h
                | exact ihm _ _ _ h
                | exact ihe _ _ _ h
                | exact Option.noConfusion h
      · -- parseElems
        intro cs acc r h
        rw [parseElems.eq_def] at h
        rw [parseElems.eq_def]
        simp only at h ⊢
        cases hpv : parseValue n cs with
        | none => rw [hpv] at h; simp at h
        | some p =>
            obtain ⟨v, rest⟩ := p
            rw [hpv] at h
            rw [ihv _ _ hpv]
            simp only at h ⊢
            split_ifs at h ⊢ <;>
              first
                | exact h
                | exact ihe _ _ _ h
                | exact Option.noConfusion h
      · -- parseMembers
        intro cs acc r h
        cases cs with
        | nil => rw [parseMembers.eq_def] at h; simp at h
        | cons c rest0 =>
            by_cases hc : c = '"'
            · subst hc
              rw [parseMembers.eq_def] at h
              rw [parseMembers.eq_def]
              simp only at h ⊢
              cases hsb : parseStringBody rest0 with
              | none =>
                  try rw [hsb] at h
                  simp at h
              | some q =>
                  obtain ⟨k, r1⟩ := q
                  try rw [hsb] at h
                  simp only at h ⊢
                  by_cases hcol : (skipWs r1).head? = some ':'
                  · rw [if_pos hcol] at h ⊢
                    cases hpv : parseValue n (skipWs (skipWs r1).tail) with
                    | none =>
                        try rw [hpv] at h
                        simp at h
                    | some p =>
                        obtain ⟨v, r3⟩ := p
                        try rw [hpv] at h
                        rw [ihv _ _ hpv]
                        simp only at h ⊢
                        split_ifs at h ⊢ <;>
                          first
                            | exact h
                            | exact ihm _ _ _ h
                            | exact Option.noConfusion h
                  · rw [if_neg hcol] at h
                    exact Option.noConfusion h
            · rw [parseMembers.eq_def] at h
              simp [hc] at h


theorem parseValue_mono_le {f g : Nat} (hle : f ≤ g) (cs : List Char)
    (r : JVal × List Char) (h : parseValue f cs = some r) : parseValue g cs = some r := by
  induction hle with
  | refl => exact h
  | step hm ih => exact (parse_mono _).1 _ _ ih


theorem digit_ne_specials (c : Char) (h : c.isDigit = true) :
    c ≠ '{' ∧ c ≠ '[' ∧ c ≠ '"' ∧ c ≠ 't' ∧ c ≠ 'f' ∧ c ≠ 'n' := by
  refine ⟨?_, ?_, ?_, ?_, ?_, ?_⟩ <;> rintro rfl <;> exact absurd h (by decide)

theorem isPrefixOf_append_mono {p l : List Char} (e : List Char)
    (h : p.isPrefixOf l = true) : p.isPrefixOf (l ++ e) = true := by
  rw [List.isPrefixOf_iff_prefix] at h ⊢
  exact h.trans (List.prefix_append l e)

theorem length_le_of_isPrefixOf {p l : List Char} (h : p.isPrefixOf l = true) :
    p.length ≤ l.length :=
  (List.isPrefixOf_iff_prefix.mp h).length_le

theorem isPrefixOf_cons_ne {a b : Char} (p l : List Char) (h : a ≠ b) :
    (a :: p).isPrefixOf (b :: l) = false := by
  simp only [List.isPrefixOf]
  rw [beq_eq_false_iff_ne.mpr h]
  simp

theorem isPrefixOf_cons_head {a b : Char} {p l : List Char}
    (h : (a :: p).isPrefixOf (b :: l) = true) : a = b := by
  simp [List.isPrefixOf] at h
  exact h.1

/-- One induction step of the append lemma, `parseValue` component. -/
theorem value_append_step (n : Nat)
    (ihe : ∀ cs acc v rest extra, parseElems n cs acc = some (v, rest) →
        parseElems n (cs ++ extra) acc = some (v, rest ++ extra))
    (ihm : ∀ cs acc v rest extra, parseMembers n cs acc = some (v, rest) →
        parseMembers n (cs ++ extra) acc = some (v, rest ++ extra)) :
    ∀ cs v rest extra, parseValue (n + 1) cs = some (v, rest) → SafeRest v rest →
        parseValue (n + 1) (cs ++ extra) = some (v, rest ++ extra) := by
  intro cs v rest extra h hsafe
  cases cs with
  | nil => rw [parseValue.eq_def] at h; simp at h
  | cons c rest0 =>
      rw [parseValue.eq_def] at h
      simp only [List.cons_append]
      rw [parseValue.eq_def]
      simp only at h ⊢
      by_cases hob : c = '{'
      · by_cases hcl : (skipWs rest0).head? = some '}'
        · rw [if_pos hob, if_pos hcl] at h
          rw [Option.some.injEq, Prod.mk.injEq] at h
          obtain ⟨rfl, rfl⟩ := h
          obtain ⟨hsw, hhd, htl⟩ := skipWs_head_append extra hcl
          rw [if_pos hob, if_pos hhd, htl]
        · rw [if_pos hob, if_neg hcl] at h
          have hne : skipWs rest0 ≠ [] := by
            intro hc; rw [hc, parseMembers_nil] at h; exact Option.noConfusion h
          have hsw := skipWs_append_ne rest0 extra hne
          have hhd : (skipWs (rest0 ++ extra)).head? = (skipWs rest0).head? := by
            rw [hsw, head?_append_ne_nil extra hne]
          have hclA : ¬((skipWs (rest0 ++ extra)).head? = some '}') := by
            rw [hhd]; exact hcl
          rw [if_pos hob, if_neg hclA, hsw]
          exact ihm _ _ _ _ _ h
      · by_cases harr : c = '['
        · by_cases hcl : (skipWs rest0).head? = some ']'
          · rw [if_neg hob, if_pos harr, if_pos hcl] at h
            rw [Option.some.injEq, Prod.mk.injEq] at h
            obtain ⟨rfl, rfl⟩ := h
            obtain ⟨hsw, hhd, htl⟩ := skipWs_head_append extra hcl
            rw [if_neg hob, if_pos harr, if_pos hhd, htl]
          · rw [if_neg hob, if_pos harr, if_neg hcl] at h
            have hne : skipWs rest0 ≠ [] := by
              intro hc; rw [hc, parseElems_nil] at h; exact Option.noConfusion h
            have hsw := skipWs_append_ne rest0 extra hne
            have hhd : (skipWs (rest0 ++ extra)).head? = (skipWs rest0).head? := by
              rw [hsw, head?_append_ne_nil extra hne]
            have hclA : ¬((skipWs (rest0 ++ extra)).head? = some ']') := by
              rw [hhd]; exact hcl
            rw [if_neg hob, if_pos harr, if_neg hclA, hsw]
            exact ihe _ _ _ _ _ h
        · by_cases hq : c = '"'
          · rw [if_neg hob, if_neg harr, if_pos hq] at h
            rw [Option.map_eq_some'] at h
            obtain ⟨⟨s0, r0⟩, hps, hmk⟩ := h
            rw [Prod.mk.injEq] at hmk
            obtain ⟨rfl, rfl⟩ := hmk
            rw [if_neg hob, if_neg harr, if_pos hq,
              parseStringBody_append rest0 s0 r0 extra hps]
            rfl
          · by_cases htr : ['t', 'r', 'u', 'e'].isPrefixOf (c :: rest0) = true
            · rw [if_neg hob, if_neg harr, if_neg hq, if_pos htr] at h
              rw [Option.some.injEq, Prod.mk.injEq] at h
              obtain ⟨rfl, rfl⟩ := h
              have hpreA := isPrefixOf_append_mono extra htr
              rw [List.cons_append] at hpreA
              have hlen : 4 ≤ (c :: rest0).length := length_le_of_isPrefixOf htr
              have hdrop : (c :: (rest0 ++ extra)).drop 4 = (c :: rest0).drop 4 ++ extra := by
                rw [← List.cons_append]; exact List.drop_append_of_le_length hlen
              rw [if_neg hob, if_neg harr, if_neg hq, if_pos hpreA, hdrop]
            · by_cases hfa : ['f', 'a', 'l', 's', 'e'].isPrefixOf (c :: rest0) = true
              · rw [if_neg hob, if_neg harr, if_neg hq, if_neg htr, if_pos hfa] at h
                rw [Option.some.injEq, Prod.mk.injEq] at h
                obtain ⟨rfl, rfl⟩ := h
                have hcf : c = 'f' := (isPrefixOf_cons_head hfa).symm
                have htrA : ¬(['t', 'r', 'u', 'e'].isPrefixOf (c :: (rest0 ++ extra)) = true) := by
                  rw [isPrefixOf_cons_ne _ _ (by rw [hcf]; decide)]; simp
                have hpreA := isPrefixOf_append_mono extra hfa
                rw [List.cons_append] at hpreA
                have hlen : 5 ≤ (c :: rest0).length := length_le_of_isPrefixOf hfa
                have hdrop : (c :: (rest0 ++ extra)).drop 5 = (c :: rest0).drop 5 ++ extra := by
                  rw [← List.cons_append]; exact List.drop_append_of_le_length hlen
                rw [if_neg hob, if_neg harr, if_neg hq, if_neg htrA, if_pos hpreA, hdrop]
              · by_cases hnl : ['n', 'u', 'l', 'l'].isPrefixOf (c :: rest0) = true
                · rw [if_neg hob, if_neg harr, if_neg hq, if_neg htr, if_neg hfa,
                    if_pos hnl] at h
                  rw [Option.some.injEq, Prod.mk.injEq] at h
                  obtain ⟨rfl, rfl⟩ := h
                  have hcn : c = 'n' := (isPrefixOf_cons_head hnl).symm
                  have htrA : ¬(['t', 'r', 'u', 'e'].isPrefixOf (c :: (rest0 ++ extra)) = true) := by
                    rw [isPrefixOf_cons_ne _ _ (by rw [hcn]; decide)]; simp
                  have hfaA : ¬(['f', 'a', 'l', 's', 'e'].isPrefixOf (c :: (rest0 ++ extra)) = true) := by
                    rw [isPrefixOf_cons_ne _ _ (by rw [hcn]; decide)]; simp
                  have hpreA := isPrefixOf_append_mono extra hnl
                  rw [List.cons_append] at hpreA
                  have hlen : 4 ≤ (c :: rest0).length := length_le_of_isPrefixOf hnl
                  have hdrop : (c :: (rest0 ++ extra)).drop 4 = (c :: rest0).drop 4 ++ extra := by
                    rw [← List.cons_append]; exact List.drop_append_of_le_length hlen
                  rw [if_neg hob, if_neg harr, if_neg hq, if_neg htrA, if_neg hfaA,
                    if_pos hpreA, hdrop]
                · by_cases hnum : c = '-' ∨ c.isDigit = true
                  · rw [if_neg hob, if_neg harr, if_neg hq, if_neg htr, if_neg hfa,
                      if_neg hnl, if_pos hnum] at h
                    rw [Option.map_eq_some'] at h
                    obtain ⟨⟨lit, r0⟩, hpn, hmk⟩ := h
                    rw [Prod.mk.injEq] at hmk
                    obtain ⟨rfl, rfl⟩ := hmk
                    have hsafe2 : ∃ b t, r0 = b :: t ∧ numSafeBreak b := hsafe
                    obtain ⟨b, t, rfl, hb⟩ := hsafe2
                    have hchars : c ≠ 't' ∧ c ≠ 'f' ∧ c ≠ 'n' := by
                      rcases hnum with rfl | hd
                      · exact ⟨by decide, by decide, by decide⟩
                      · obtain ⟨-, -, -, h4, h5, h6⟩ := digit_ne_specials c hd
                        exact ⟨h4, h5, h6⟩
                    have htrA : ¬(['t', 'r', 'u', 'e'].isPrefixOf (c :: (rest0 ++ extra)) = true) := by
                      rw [isPrefixOf_cons_ne _ _ (Ne.symm hchars.1)]; simp
                    have hfaA : ¬(['f', 'a', 'l', 's', 'e'].isPrefixOf (c :: (rest0 ++ extra)) = true) := by
                      rw [isPrefixOf_cons_ne _ _ (Ne.symm hchars.2.1)]; simp
                    have hnlA : ¬(['n', 'u', 'l', 'l'].isPrefixOf (c :: (rest0 ++ extra)) = true) := by
                      rw [isPrefixOf_cons_ne _ _ (Ne.symm hchars.2.2)]; simp
                    have hpn2 := parseNumber_append (c :: rest0) extra lit b t hpn hb
                    rw [List.cons_append] at hpn2
                    rw [if_neg hob, if_neg harr, if_neg hq, if_neg htrA, if_neg hfaA,
                      if_neg hnlA, if_pos hnum, hpn2]
                    rfl
                  · rw [if_neg hob, if_neg harr, if_neg hq, if_neg htr, if_neg hfa,
                      if_neg hnl, if_neg hnum] at h
                    exact Option.noConfusion h


/-- One induction step of the append lemma, `parseElems` component. -/
theorem elems_append_step (n : Nat)
    (ihv : ∀ cs v rest extra, parseValue n cs = some (v, rest) → SafeRest v rest →
        parseValue n (cs ++ extra) = some (v, rest ++ extra))
    (ihe : ∀ cs acc v rest extra, parseElems n cs acc = some (v, rest) →
        parseElems n (cs ++ extra) acc = some (v, rest ++ extra)) :
    ∀ cs acc v rest extra, parseElems (n + 1) cs acc = some (v, rest) →
        parseElems (n + 1) (cs ++ extra) acc = some (v, rest ++ extra) := by
  intro cs acc v rest extra h
  rw [parseElems.eq_def] at h
  rw [parseElems.eq_def]
  simp only at h ⊢
  cases hpv : parseValue n cs with
  | none =>
      try rw [hpv] at h
      simp at h
  | some p =>
      obtain ⟨v0, rest0⟩ := p
      try rw [hpv] at h
      simp only at h
      by_cases hc1 : (skipWs rest0).head? = some ','
      · rw [if_pos hc1] at h
        have hsafe0 : SafeRest v0 rest0 := safeRest_of_head v0 rest0 ',' hc1 ⟨by decide, by decide, by decide, by decide⟩
        have hv0e := ihv cs v0 rest0 extra hpv hsafe0
        obtain ⟨hsw, hhd, htl⟩ := skipWs_head_append extra hc1
        rw [hv0e]
        simp only
        rw [if_pos hhd, htl]
        have hinne : skipWs ((skipWs rest0).tail) ≠ [] := by
          intro hc; rw [hc, parseElems_nil] at h; exact Option.noConfusion h
        rw [skipWs_append_ne _ extra hinne]
        exact ihe _ _ _ _ _ h
      · by_cases hc2 : (skipWs rest0).head? = some ']'
        · rw [if_neg hc1, if_pos hc2] at h
          rw [Option.some.injEq, Prod.mk.injEq] at h
          obtain ⟨rfl, rfl⟩ := h
          have hsafe0 : SafeRest v0 rest0 := safeRest_of_head v0 rest0 ']' hc2 ⟨by decide, by decide, by decide, by decide⟩
          have hv0e := ihv cs v0 rest0 extra hpv hsafe0
          obtain ⟨hsw, hhd, htl⟩ := skipWs_head_append extra hc2
          rw [hv0e]
          simp only
          have hc1A : ¬((skipWs (rest0 ++ extra)).head? = some ',') := by
            rw [hhd]; simp
          rw [if_neg hc1A, if_pos hhd, htl]
        · rw [if_neg hc1, if_neg hc2] at h
          exact Option.noConfusion h

/-- One induction step of the append lemma, `parseMembers` component. -/
theorem members_append_step (n : Nat)
    (ihv : ∀ cs v rest extra, parseValue n cs = some (v, rest) → SafeRest v rest →
        parseValue n (cs ++ extra) = some (v, rest ++ extra))
    (ihm : ∀ cs acc v rest extra, parseMembers n cs acc = some (v, rest) →
        parseMembers n (cs ++ extra) acc = some (v, rest ++ extra)) :
    ∀ cs acc v rest extra, parseMembers (n + 1) cs acc = some (v, rest) →
        parseMembers (n + 1) (cs ++ extra) acc = some (v, rest ++ extra) := by
  intro cs acc v rest extra h
  cases cs with
  | nil => rw [parseMembers.eq_def] at h; simp at h
  | cons c rest0 =>
      by_cases hc : c = '"'
      · subst hc
        rw [parseMembers.eq_def] at h
        simp only [List.cons_append]
        rw [parseMembers.eq_def]
        simp only at h ⊢
        cases hsb : parseStringBody rest0 with
        | none =>
            try rw [hsb] at h
            simp at h
        | some q =>
            obtain ⟨k, r1⟩ := q
            try rw [hsb] at h
            simp only at h
            rw [parseStringBody_append rest0 k r1 extra hsb]
            simp only
            by_cases hcol : (skipWs r1).head? = some ':'
            · rw [if_pos hcol] at h
              obtain ⟨hsw1, hhd1, htl1⟩ := skipWs_head_append extra hcol
              rw [if_pos hhd1, htl1]
              cases hpv : parseValue n (skipWs (skipWs r1).tail) with
              | none =>
                  try rw [hpv] at h
                  simp at h
              | some p =>
                  obtain ⟨v0, r3⟩ := p
                  try rw [hpv] at h
                  simp only at h
                  have hinne : skipWs ((skipWs r1).tail) ≠ [] := by
                    intro hcn; rw [hcn, parseValue_nil] at hpv; exact Option.noConfusion hpv
                  rw [skipWs_append_ne _ extra hinne]
                  by_cases hc1 : (skipWs r3).head? = some ','
                  · rw [if_pos hc1] at h
                    have hsafe0 : SafeRest v0 r3 := safeRest_of_head v0 r3 ',' hc1 ⟨by decide, by decide, by decide, by decide⟩
                    have hv0e := ihv _ v0 r3 extra hpv hsafe0
                    rw [hv0e]
                    simp only
                    obtain ⟨hsw3, hhd3, htl3⟩ := skipWs_head_append extra hc1
                    rw [if_pos hhd3, htl3]
                    have hin2 : skipWs ((skipWs r3).tail) ≠ [] := by
                      intro hcn; rw [hcn, parseMembers_nil] at h; exact Option.noConfusion h
                    rw [skipWs_append_ne _ extra hin2]
                    exact ihm _ _ _ _ _ h
                  · by_cases hc2 : (skipWs r3).head? = some '}'
                    · rw [if_neg hc1, if_pos hc2] at h
                      rw [Option.some.injEq, Prod.mk.injEq] at h
                      obtain ⟨rfl, rfl⟩ := h
                      have hsafe0 : SafeRest v0 r3 := safeRest_of_head v0 r3 '}' hc2 ⟨by decide, by decide, by decide, by decide⟩
                      have hv0e := ihv _ v0 r3 extra hpv hsafe0
                      rw [hv0e]
                      simp only
                      obtain ⟨hsw3, hhd3, htl3⟩ := skipWs_head_append extra hc2
                      have hc1A : ¬((skipWs (r3 ++ extra)).head? = some ',') := by
                        rw [hhd3]; simp
                      rw [if_neg hc1A, if_pos hhd3, htl3]
                    · rw [if_neg hc1, if_neg hc2] at h
                      exact Option.noConfusion h
            · rw [if_neg hcol] at h
              exact Option.noConfusion h
      · rw [parseMembers.eq_def] at h
        simp [hc] at h


/-- Appending text to the input of the mutual JSON parser extends a successful
parse's rest, provided (for bare numbers) the old rest starts with a
number-breaking character. -/
theorem parse_append : ∀ fuel : Nat,
    (∀ cs v rest extra, parseValue fuel cs = some (v, rest) → SafeRest v rest →
        parseValue fuel (cs ++ extra) = some (v, rest ++ extra)) ∧
    (∀ cs acc v rest extra, parseElems fuel cs acc = some (v, rest) →
        parseElems fuel (cs ++ extra) acc = some (v, rest ++ extra)) ∧
    (∀ cs acc v rest extra, parseMembers fuel cs acc = some (v, rest) →
        parseMembers fuel (cs ++ extra) acc = some (v, rest ++ extra)) := by
  intro fuel
  induction fuel with
  | zero =>
      refine ⟨?_, ?_, ?_⟩
      · intro cs v rest extra h _; simp [parseValue] at h
      · intro cs acc v rest extra h; simp [parseElems] at h
      · intro cs acc v rest extra h; simp [parseMembers] at h
  | succ n ih =>
      obtain ⟨ihv, ihe, ihm⟩ := ih
      exact ⟨value_append_step n ihe ihm, elems_append_step n ihv ihe,
        members_append_step n ihv ihm⟩


theorem toList_append (s t : String) : (s ++ t).toList = s.toList ++ t.toList := rfl

theorem psb_step (c : Char) (l : List Char) (h1 : c ≠ '"') (h2 : c ≠ '\\') :
    parseStringBody (c :: l) =
      (parseStringBody l).map fun p => (⟨c :: p.1.toList⟩, p.2) := by
  rw [parseStringBody.eq_def]
  simp [h1, h2]

theorem psb_close (r : List Char) : parseStringBody ('"' :: r) = some ("", r) := by
  rw [parseStringBody.eq_def]
  simp

theorem psb_items (r : List Char) :
    parseStringBody ('i' :: 't' :: 'e' :: 'm' :: 's' :: '"' :: r) = some ("items", r) := by
  rw [psb_step 'i' _ (by decide) (by decide), psb_step 't' _ (by decide) (by decide),
    psb_step 'e' _ (by decide) (by decide), psb_step 'm' _ (by decide) (by decide),
    psb_step 's' _ (by decide) (by decide), psb_close]
  rfl

/-- Parsing the members `"items": <array-from-ss> }`. -/
theorem parseMembers_wrap (g : Nat) (ssL : List Char) (a : List JVal) (rest : List Char)
    (hp : parseValue g (skipWs ssL) = some (.arr a, rest))
    (hrest : skipWs rest = []) :
    parseMembers (g + 1)
      ('"' :: 'i' :: 't' :: 'e' :: 'm' :: 's' :: '"' :: ':' :: (ssL ++ ['\x7d'])) [] =
      some (.obj [("items", .arr a)], []) := by
  rw [parseMembers.eq_def]
  simp only [psb_items]
  have hsw0 : skipWs (':' :: (ssL ++ ['\x7d'])) = ':' :: (ssL ++ ['\x7d']) :=
    skipWs_of_head_false ':' _ (by decide)
  rw [hsw0]
  simp only [List.head?_cons, List.tail_cons, if_true]
  have hne : skipWs ssL ≠ [] := by
    intro hc; rw [hc, parseValue_nil] at hp; exact Option.noConfusion hp
  have hswA : skipWs (ssL ++ ['\x7d']) = skipWs ssL ++ ['\x7d'] :=
    skipWs_append_ne _ _ hne
  have hpA : parseValue g (skipWs ssL ++ ['\x7d']) = some (.arr a, rest ++ ['\x7d']) :=
    (parse_append g).1 _ _ _ _ hp trivial
  rw [hswA, hpA]
  simp only
  have hswR : skipWs (rest ++ ['\x7d']) = ['\x7d'] := by
    rw [skipWs_append_nil rest _ hrest]; rfl
  rw [hswR]
  simp only [List.head?_cons, List.tail_cons]
  rw [if_neg (by decide)]
  simp

/-- Parsing the whole wrapped object. -/
theorem parseValue_wrap (g : Nat) (ssL : List Char) (a : List JVal) (rest : List Char)
    (hp : parseValue g (skipWs ssL) = some (.arr a, rest))
    (hrest : skipWs rest = []) :
    parseValue (g + 2)
      ('\x7b' :: '"' :: 'i' :: 't' :: 'e' :: 'm' :: 's' :: '"' :: ':' :: (ssL ++ ['\x7d'])) =
      some (.obj [("items", .arr a)], []) := by
  rw [parseValue.eq_def]
  simp only [if_true]
  have hsw1 : skipWs ('"' :: 'i' :: 't' :: 'e' :: 'm' :: 's' :: '"' :: ':' :: (ssL ++ ['\x7d'])) =
      '"' :: 'i' :: 't' :: 'e' :: 'm' :: 's' :: '"' :: ':' :: (ssL ++ ['\x7d']) :=
    skipWs_of_head_false '"' _ (by decide)
  rw [hsw1]
  simp only [List.head?_cons]
  rw [if_neg (by decide)]
  exact parseMembers_wrap g ssL a rest hp hrest

/-- `json.loads` maps `{"items":<ss>}` to the object wrapping `ss`'s array. -/
theorem jsonLoads_wrap (ss : String) (a : List JVal)
    (h : jsonLoads ss = some (.arr a)) :
    jsonLoads ("\x7b\"items\":" ++ ss ++ "\x7d") = some (.obj [("items", .arr a)]) := by
  unfold jsonLoads at h
  cases hpv : parseValue (2 * ss.toList.length + 8) (skipWs ss.toList) with
  | none => rw [hpv] at h; simp at h
  | some p =>
      obtain ⟨v, rest⟩ := p
      rw [hpv] at h
      simp only at h
      by_cases hr : skipWs rest = []
      · rw [if_pos hr] at h
        have hva : v = .arr a := by simpa using h
        subst hva
        have hWL : ("\x7b\"items\":" ++ ss ++ "\x7d").toList =
            '\x7b' :: '"' :: 'i' :: 't' :: 'e' :: 'm' :: 's' :: '"' :: ':' ::
              (ss.toList ++ ['\x7d']) := by
          rw [toList_append, toList_append]
          rfl
        unfold jsonLoads
        rw [hWL]
        have hlen : ('\x7b' :: '"' :: 'i' :: 't' :: 'e' :: 'm' :: 's' :: '"' :: ':' ::
            (ss.toList ++ ['\x7d'])).length = ss.toList.length + 10 := by
          simp
        rw [hlen]
        have hfuel : 2 * (ss.toList.length + 10) + 8 = (2 * ss.toList.length + 26) + 2 := by
          omega
        rw [hfuel]
        have hsk : skipWs ('\x7b' :: '"' :: 'i' :: 't' :: 'e' :: 'm' :: 's' :: '"' :: ':' ::
            (ss.toList ++ ['\x7d'])) =
            '\x7b' :: '"' :: 'i' :: 't' :: 'e' :: 'm' :: 's' :: '"' :: ':' ::
              (ss.toList ++ ['\x7d']) :=
          skipWs_of_head_false '\x7b' _ (by decide)
        rw [hsk]
        have hpv2 : parseValue (2 * ss.toList.length + 26) (skipWs ss.toList) =
            some (.arr a, rest) :=
          parseValue_mono_le (by omega) _ _ hpv
        rw [parseValue_wrap (2 * ss.toList.length + 26) ss.toList a rest hpv2 hr]
        simp [skipWs]
      · rw [if_neg hr] at h
        exact Option.noConfusion h



/-- C8 (corrected): when the input needs no smart-quote or NBSP normalisation,
its stripped form is a well-formed top-level JSON array parsing to `a`, and the
three repair passes (bare-key quoting, single-quote flipping, trailing-comma
removal) leave the wrapped text `\x7b"items":<array>\x7d` unchanged, then
`_lenient_json_loads` succeeds and returns the object `\x7b"items": a\x7d`.
Without the pass-identity provisos the claim is false: see
`lenient_json_cex`, where a colon after a word inside a string element makes
the bare-key pass corrupt the array and the function raise. -/
theorem lenient_json_wraps_array (s : String) (a : List JVal)
    (h1 : smartQuoteNorm s = s)
    (h2 : pyReplace s "\u00A0" " " = s)
    (hne : ¬(s = ""))
    (hhead : (pyStrip s).toList.head? = some '[')
    (hlast : (pyStrip s).toList.getLast? = some ']')
    (hbk : bareKeySub ("\x7b\"items\":" ++ pyStrip s ++ "\x7d") =
        "\x7b\"items\":" ++ pyStrip s ++ "\x7d")
    (hqf : quoteFlipSub ("\x7b\"items\":" ++ pyStrip s ++ "\x7d") =
        "\x7b\"items\":" ++ pyStrip s ++ "\x7d")
    (htc : trailingCommaSub ("\x7b\"items\":" ++ pyStrip s ++ "\x7d") =
        "\x7b\"items\":" ++ pyStrip s ++ "\x7d")
    (hparse : jsonLoads (pyStrip s) = some (.arr a)) :
    lenientJsonLoads s = some (.obj [("items", .arr a)]) := by
  unfold lenientJsonLoads
  rw [if_neg hne]
  simp only [h1, h2]
  rw [if_pos ⟨hhead, hlast⟩]
  rw [hbk, hqf, htc, jsonLoads_wrap _ a hparse]

/-- C8 counterexample: the stripped input is a well-formed JSON array (as
`jsonLoads` confirms), its single string element contains a colon after a
word, and `_lenient_json_loads` raises (returns `none`) instead of wrapping
it, because the bare-key pass inserts quotes inside the string element. -/
theorem lenient_json_cex :
    jsonLoads "[\"say hello: world\"]" = some (.arr [.str "say hello: world"]) ∧
    lenientJsonLoads "[\"say hello: world\"]" = none :=
  ⟨rfl, rfl⟩

/-- Witness for `lenient_json_wraps_array` at the concrete input `"[1]"`. -/
theorem lenient_json_wraps_array_witness :
    lenientJsonLoads "[1]" = some (.obj [("items", .arr [.num "1"])]) :=
  lenient_json_wraps_array "[1]" [.num "1"] rfl rfl (by decide) rfl rfl rfl rfl rfl rfl

end Vocab
